import Mathlib

/-!
Shallow embedding of the robopoker core (MCCFR profile, clustering layer,
metric construction and persistence) and proofs about it.

Floats (`f32` Probability / Utility / Energy) are modelled as exact rationals;
`f32::MIN_POSITIVE` is the exact rational 2 ^ (-126).  `BTreeMap`s are
modelled as association lists with first-occurrence lookup, which agrees with
the map semantics the claims depend on.  Rust panics (`expect`, `assert!`,
`unreachable!`) are modelled by `Option`/`Except` failure values.
-/

namespace Robopoker

/-- Exact value of `f32::MIN_POSITIVE` (the least positive normal float). -/
def minPositive : ℚ := 1 / 2 ^ 126

/-! ### Association-list maps (model of `BTreeMap` lookup/entry semantics) -/

/-- First-occurrence lookup, the observable semantics of `BTreeMap::get`. -/
def alookup {α β : Type} [DecidableEq α] : List (α × β) → α → Option β
  | [], _ => none
  | (k, v) :: rest, a => if k = a then some v else alookup rest a

/-- `entry(a).or_insert(d)` followed by an in-place mutation `f`. -/
def upsert {α β : Type} [DecidableEq α] (l : List (α × β)) (a : α) (d : β) (f : β → β) :
    List (α × β) :=
  match l with
  | [] => [(a, f d)]
  | (k, v) :: rest => if k = a then (k, f v) :: rest else (k, v) :: upsert rest a d f

/-- `get_mut(a).expect(..)` followed by a fallible mutation: fails when the
key is absent (modelling the Rust panic). -/
def amodify {α β : Type} [DecidableEq α] : List (α × β) → α → (β → Option β) →
    Option (List (α × β))
  | [], _, _ => none
  | (k, v) :: rest, a, f =>
    if k = a then (f v).map (fun v2 => (k, v2) :: rest)
    else (amodify rest a f).map (fun l2 => (k, v) :: l2)

/-! ### Profile data model (src/mccfr/profile.rs) -/

/-- Bucket identifiers: `Bucket(Path, Abstraction)` is orderable and hashable;
only its decidable equality matters for the claims, so it is opaque here. -/
abbrev Bucket := ℕ

/-- Edge identifiers, likewise opaque. -/
abbrev Edge := ℕ

/-- `Player`: the chance player or one of the two choice players. -/
inductive Player where
  | chance : Player
  | choice : ℕ → Player
deriving DecidableEq, Repr

/-- Modelled from the spec: the `Strategy` struct (src/mccfr/strategy.rs is not
under src/) holds the three scalars `regret`, `policy`, `advice`; its
`Default` is all zeroes. -/
structure Strategy where
  regret : ℚ
  policy : ℚ
  advice : ℚ
deriving DecidableEq, Repr

def Strategy.default : Strategy := { regret := 0, policy := 0, advice := 0 }

/-- `Profile { iterations, strategies }`. -/
structure Profile where
  iterations : ℕ
  strategies : List (Bucket × List (Edge × Strategy))
deriving DecidableEq, Repr

/-- `Profile::load` (fresh profile: empty map, zero iterations). -/
def Profile.empty : Profile := { iterations := 0, strategies := [] }

/-- `Profile::next`: increment the iteration counter. -/
def next (p : Profile) : Profile := { p with iterations := p.iterations + 1 }

/-- `Profile::epochs = iterations / 2` (integer division). -/
def epochs (p : Profile) : ℕ := p.iterations / 2

/-- `Profile::walker`: `Choice(iterations % 2)`. -/
def walker (p : Profile) : Player := Player.choice (p.iterations % 2)

/-- Lookup of the stored `Strategy` for a bucket/edge pair. -/
def strategyGet (p : Profile) (b : Bucket) (e : Edge) : Option Strategy :=
  (alookup p.strategies b).bind (fun es => alookup es e)

/-- The body of the `witness` loop: `entry(infoset).or_insert(empty map)`,
then `entry(edge).or_insert(Strategy::default)`, then `.policy = uniform`. -/
def witnessStep (b : Bucket) (uniform : ℚ)
    (s : List (Bucket × List (Edge × Strategy))) (e : Edge) :
    List (Bucket × List (Edge × Strategy)) :=
  upsert s b [] (fun es =>
    upsert es e Strategy.default (fun st => { st with policy := uniform }))

/-- `Profile::witness(node)`: if the node's bucket is unseen, set
`policy = 1/|edges|` on a fresh default `Strategy` for every outgoing edge.
The uniform value is computed before the loop even when `edges` is empty. -/
def witness (p : Profile) (b : Bucket) (edges : List Edge) : Profile :=
  if (alookup p.strategies b).isSome then p
  else
    let uniform : ℚ := 1 / (edges.length : ℚ)
    { p with strategies := edges.foldl (witnessStep b uniform) p.strategies }

/-- `Profile::strategy(bucket, edge)` mutation: both `get_mut`s `expect`
presence, modelled as `Option` failure. -/
def modifyStrategy (p : Profile) (b : Bucket) (e : Edge) (f : Strategy → Strategy) :
    Option Profile :=
  (amodify p.strategies b (fun es => amodify es e (fun st => some (f st)))).map
    (fun s2 => { p with strategies := s2 })

/-- `Profile::update_regret`: overwrite each listed edge's regret. -/
def update_regret (p : Profile) (b : Bucket) (v : List (Edge × ℚ)) : Option Profile :=
  v.foldlM (fun q pr => modifyStrategy q b pr.1 (fun st => { st with regret := pr.2 })) p

/-- `Profile::update_policy`: overwrite each listed edge's policy and fold it
into the running average, `advice := (advice * E + policy) / (E + 1)` with
`E = epochs` read once before the loop. -/
def update_policy (p : Profile) (b : Bucket) (v : List (Edge × ℚ)) : Option Profile :=
  let E : ℚ := (epochs p : ℚ)
  v.foldlM (fun q pr => modifyStrategy q b pr.1
    (fun st => { st with policy := pr.2, advice := (st.advice * E + pr.2) / (E + 1) })) p

/-- `Profile::policy(node, edge)`: asserts the node is neither chance nor the
walker (modelled as failure), then returns the stored policy with
`unwrap_or(f32::MIN_POSITIVE)`. -/
def policy (p : Profile) (nodePlayer : Player) (b : Bucket) (e : Edge) : Option ℚ :=
  if nodePlayer = Player.chance then none
  else if nodePlayer = walker p then none
  else some (((strategyGet p b e).map Strategy.policy).getD minPositive)

/-- `Profile::running_regret`: the stored regret (`expect`s presence). -/
def running_regret (p : Profile) (b : Bucket) (e : Edge) : Option ℚ :=
  (strategyGet p b e).map Strategy.regret

/-- `Profile::policy_vector`: asserts the infoset belongs to the walker, floors
each running regret at `MIN_POSITIVE`, and normalizes by the floored sum.
The infoset is represented by its bucket and list of outgoing edges (the
outgoing edges of an infoset are distinct, so a list stands in for the
source's `BTreeMap` accumulator). -/
def policy_vector (p : Profile) (pl : Player) (b : Bucket) (edges : List Edge) :
    Option (List (Edge × ℚ)) :=
  if pl = walker p then
    match edges.mapM (fun e => (running_regret p b e).map (fun r => (e, max r minPositive))) with
    | none => none
    | some regrets =>
      let s : ℚ := (regrets.map Prod.snd).sum
      some (regrets.map (fun pr => (pr.1, pr.2 / s)))
  else none

/-- `Profile::reach(head, edge)`: 1 at chance nodes, otherwise the stored
policy (both lookups `expect` presence). -/
def reach (p : Profile) (headPlayer : Player) (b : Bucket) (e : Edge) : Option ℚ :=
  if headPlayer = Player.chance then some 1
  else (strategyGet p b e).map Strategy.policy

/-! ### binary32 rounding (for float-sensitive claims)

`Probability`/`Utility` are `f32` in the source.  The exact-rational
operations above carry the algebraic content; a claim whose truth depends on
sub-ulp floating-point effects is settled against the following IEEE-754
binary32 round-to-nearest-even model, in which every finite f32 value is
represented by the exact rational it denotes. -/

/-- Round half to even of a rational to an integer (the IEEE-754 tie rule). -/
def rne (q : ℚ) : ℤ :=
  if q - (⌊q⌋ : ℚ) < 1 / 2 then ⌊q⌋
  else if (1 : ℚ) / 2 < q - (⌊q⌋ : ℚ) then ⌊q⌋ + 1
  else if ⌊q⌋ % 2 = 0 then ⌊q⌋ else ⌊q⌋ + 1

/-- The unit in the last place of binary32 at magnitude `|x|`: `2^(e-23)`
for `|x|` in the normal binade `[2^e, 2^(e+1))`, clamped to the subnormal
grid `2^(-149)` below the normal range (`Int.log 2` is the floor of the
base-2 logarithm). -/
def ulpF32 (x : ℚ) : ℚ := 2 ^ (max (Int.log 2 |x|) (-126) - 23)

/-- IEEE-754 binary32 rounding of an exact rational to the nearest
representable value, ties to even.  (Magnitudes at or above `2^128`, which
become infinite in f32, stay finite here; no claim evaluates the model
there.) -/
def roundF32 (x : ℚ) : ℚ := (rne (x / ulpF32 x) : ℚ) * ulpF32 x

/-- `Iterator::sum` over `f32` values: left fold of rounded additions
starting from 0. -/
def sumF32 (l : List ℚ) : ℚ := l.foldl (fun acc x => roundF32 (acc + x)) 0

/-- `Profile::policy_vector` under f32 arithmetic: the flooring `f32::max`
is exact, while the sum of the floored regrets and each division round to
binary32.  (`policy_vector` above embeds the same source function in exact
arithmetic; stored f32 regrets and policies are exact rationals, so the two
differ only where rounding occurs.) -/
def policy_vectorF32 (p : Profile) (pl : Player) (b : Bucket) (edges : List Edge) :
    Option (List (Edge × ℚ)) :=
  if pl = walker p then
    match edges.mapM (fun e => (running_regret p b e).map (fun r => (e, max r minPositive))) with
    | none => none
    | some regrets =>
      let s : ℚ := sumF32 (regrets.map Prod.snd)
      some (regrets.map (fun pr => (pr.1, roundF32 (pr.2 / s))))
  else none

/-! ### Game-tree nodes (parent / incoming-edge chains)

The `Tree`/`Node` types live outside src/ (the profile only consumes them);
a node is modelled from the spec as its chain of ancestors: every node knows
its bucket, its player, and, unless it is the tree root, its parent and the
incoming edge.  This is exactly the access pattern of the reach recursions. -/

inductive GNode where
  | base : Bucket → Player → GNode
  | child : GNode → Edge → Bucket → Player → GNode
deriving DecidableEq, Repr

def GNode.bucket : GNode → Bucket
  | .base b _ => b
  | .child _ _ b _ => b

def GNode.player : GNode → Player
  | .base _ pl => pl
  | .child _ _ _ pl => pl

/-- The node together with all of its ancestors, nearest first. -/
def GNode.chain : GNode → List GNode
  | .base b pl => [.base b pl]
  | .child h e b pl => .child h e b pl :: h.chain

/-- `Profile::reach` applied at a tree node. -/
def reachAt (p : Profile) (h : GNode) (e : Edge) : Option ℚ :=
  reach p h.player h.bucket e

/-- `Profile::relative_reach(root, leaf)`: 1 when the two nodes share a
bucket, otherwise recurse through the leaf's parent, multiplying in
`reach(parent, incoming)`; `unreachable!` when a bucket-distinct ancestor
chain bottoms out (modelled as failure). -/
def relative_reach (p : Profile) (root : GNode) : GNode → Option ℚ
  | .base b pl =>
    if root.bucket = (GNode.base b pl).bucket then some 1 else none
  | .child h e b pl =>
    if root.bucket = (GNode.child h e b pl).bucket then some 1
    else (relative_reach p root h).bind (fun r => (reachAt p h e).map (fun q => r * q))

/-- The spec's description of `relative_reach`: the product of
`reach(parent, incoming)` over every step of the path from `root` to `leaf`,
with base case the *node* `root` itself (not merely its bucket). -/
def pathReachProduct (p : Profile) (root : GNode) : GNode → Option ℚ
  | .base b pl =>
    if GNode.base b pl = root then some 1 else none
  | .child h e b pl =>
    if GNode.child h e b pl = root then some 1
    else (pathReachProduct p root h).bind (fun r => (reachAt p h e).map (fun q => r * q))

/-! ### Clustering layer (src/clustering/layer.rs)

Histograms are opaque identifiers here; the EMD between two histograms is an
explicit function parameter (in the source it is `Metric::emd`, an iterative
Sinkhorn computation whose value the assignment/initialization logic treats
as a black box). -/

abbrev Hist := ℕ

/-- `Iterator::min_by` over `(index, distance)` pairs with the source's
comparator on distances: the accumulator is replaced only on a strictly
smaller distance, so the first minimal element wins. -/
def minByFirst : List (ℕ × ℚ) → Option (ℕ × ℚ)
  | [] => none
  | x :: xs => some (xs.foldl (fun acc y => if y.2 < acc.2 then y else acc) x)

/-- `Layer::neighboring`: enumerate the centroids, pair each index with its
EMD to `x`, and take `min_by` on the distances. -/
def neighboring (emd : Hist → Hist → ℚ) (kmeans : List Hist) (x : Hist) : Option (ℕ × ℚ) :=
  minByFirst ((kmeans.enum).map (fun pr => (pr.1, emd x pr.2)))

/-- `WeightedIndex::new` validity: nonempty, nonnegative weights, positive
total. -/
def validWeights (ws : List ℚ) : Bool :=
  !ws.isEmpty && ws.all (fun w => decide (0 ≤ w)) && decide (0 < ws.sum)

/-- `WeightedIndex::sample` given the uniform draw `x ∈ [0, total)`: the
first index whose cumulative weight exceeds `x`. -/
def weightedChoice : List ℚ → ℚ → ℕ
  | [], _ => 0
  | w :: rest, x => if x < w then 0 else weightedChoice rest (x - w) + 1

/-- One-per-centroid loop of `Layer::init` (k-means++).  `draws t` is the
`t`-th uniform `[0,1)` sample drawn from the RNG, scaled by the current total
weight to give `WeightedIndex` its point in `[0, total)`.  Failures model the
two `expect`s (invalid weights, index out of range). -/
def initLoop (points : List Hist) (emd : Hist → Hist → ℚ) (draws : ℕ → ℚ) :
    ℕ → List Hist → List ℚ → ℕ → Option (List Hist)
  | 0, hists, _, _ => some hists
  | fuel + 1, hists, pots, t =>
    if validWeights pots then
      match points.get? (weightedChoice pots (draws t * pots.sum)) with
      | none => none
      | some x =>
        initLoop points emd draws fuel (hists ++ [x])
          ((points.map (fun h => emd x h * emd x h)).zipWith min
            (pots.set (weightedChoice pots (draws t * pots.sum)) 0))
          (t + 1)
    else none

/-- `Layer::init`: k-means++ initialization, drawing `k` centroids starting
from unit potentials.  The RNG is `rand::thread_rng()` in the source; it is
surfaced here as the ambient draw stream `draws`. -/
def init (k : ℕ) (points : List Hist) (emd : Hist → Hist → ℚ) (draws : ℕ → ℚ) :
    Option (List Hist) :=
  initLoop points emd draws k [] (List.replicate points.length 1) 0

/-! ### Metric construction (src/clustering/metric.rs) -/

/-- Pair keys (`Pair` has a stable `i64` bijection; only equality matters). -/
abbrev PairK := ℕ

/-- `impl From<BTreeMap<Pair, Energy>> for Metric`: divide every raw distance
by the maximum entry, the fold starting from `f32::MIN_POSITIVE`. -/
def metricFrom (m : List (PairK × ℚ)) : List (PairK × ℚ) :=
  let mx := (m.map Prod.snd).foldl max minPositive
  m.map (fun pr => (pr.1, pr.2 / mx))

/-! ### Metric persistence (`Metric::load`, PGCOPY framing)

Bytes are naturals below 256.  The `f32` distance is kept as its raw 4-byte
big-endian bit pattern (decoding it plays no role in the framing claims). -/

abbrev Bytes := List ℕ

/-- `read_exact` into an `n`-byte buffer: fails when fewer than `n` bytes
remain, otherwise returns the buffer and the rest of the stream. -/
def readExact : ℕ → Bytes → Option (Bytes × Bytes)
  | 0, bs => some ([], bs)
  | _ + 1, [] => none
  | n + 1, b :: bs => (readExact n bs).map (fun pr => (b :: pr.1, pr.2))

/-- Big-endian 16-bit value of two bytes. -/
def be16 (b0 b1 : ℕ) : ℕ := b0 * 256 + b1

/-- Big-endian value of a byte string. -/
def beNat (l : Bytes) : ℕ := l.foldl (fun acc b => acc * 256 + b) 0

/-- Two's-complement `i64` value of an 8-byte big-endian string. -/
def i64FromBytes (l : Bytes) : ℤ :=
  let n := beNat l
  if n < 2 ^ 63 then (n : ℤ) else (n : ℤ) - 2 ^ 64

/-- `BTreeMap::insert` observable behaviour on an association list: replace
the first occurrence or append. -/
def ainsert {α β : Type} [DecidableEq α] (l : List (α × β)) (a : α) (v : β) : List (α × β) :=
  upsert l a v (fun _ => v)

/-- The row loop of `Metric::load`.  Each pass reads a 2-byte field count;
read failure there ends the loop successfully (`while ... .is_ok()`), a
count other than 2 `break`s (also successfully), and a count of 2 `expect`s
the four framed reads (the two 4-byte length fields are read and discarded).
The fuel only bounds the recursion; `loadMetric` supplies enough that it is
never exhausted (each continuing pass consumes 22 bytes). -/
def loadAux : ℕ → Bytes → List (ℤ × ℕ) → Except Unit (List (ℤ × ℕ))
  | 0, _, acc => .ok acc
  | fuel + 1, bs, acc =>
    match bs with
    | b0 :: b1 :: bs1 =>
      if be16 b0 b1 = 2 then
        match readExact 4 bs1 with
        | none => .error ()
        | some (_, bs2) =>
          match readExact 8 bs2 with
          | none => .error ()
          | some (pairB, bs3) =>
            match readExact 4 bs3 with
            | none => .error ()
            | some (_, bs4) =>
              match readExact 4 bs4 with
              | none => .error ()
              | some (distB, bs5) =>
                loadAux fuel bs5 (ainsert acc (i64FromBytes pairB) (beNat distB))
      else .ok acc
    | _ => .ok acc

/-- `Metric::load`: seek unconditionally past the 19-byte header (no
validation of the magic, flags, or extension), then run the row loop. -/
def loadMetric (bs : Bytes) : Except Unit (List (ℤ × ℕ)) :=
  loadAux (bs.length + 1) (bs.drop 19) []

/-! ### Derived notions used in theorem statements -/

/-- Every stored current policy is nonnegative. -/
def nonnegInv (p : Profile) : Prop :=
  ∀ b e st, strategyGet p b e = some st → 0 ≤ st.policy

/-- The stored running regret floored at `MIN_POSITIVE` (0 when unseen; the
theorems about it always assume the edge was seen). -/
def flooredRegret (p : Profile) (b : Bucket) (e : Edge) : ℚ :=
  max (((strategyGet p b e).map Strategy.regret).getD 0) minPositive

/-- Sum of the floored running regrets across an infoset's outgoing edges. -/
def flooredSum (p : Profile) (b : Bucket) (edges : List Edge) : ℚ :=
  (edges.map (flooredRegret p b)).sum

/-! ### Concrete executions used by specific claims -/

/-- C2 trace: witness a one-edge bucket, then update its policy at epoch 0. -/
def c2p1 : Option Profile := update_policy (witness Profile.empty 0 [0]) 0 [(0, 1)]

/-- C2 trace: second update, at epoch 1 (iterations bumped twice). -/
def c2p2 : Option Profile := c2p1.bind (fun q => update_policy (next (next q)) 0 [(0, 1 / 2)])

/-- C2 trace: third update, at epoch 2. -/
def c2p3 : Option Profile := c2p2.bind (fun q => update_policy (next (next q)) 0 [(0, 0)])

/-- C2 trace: fourth update, at epoch 3. -/
def c2p4 : Option Profile := c2p3.bind (fun q => update_policy (next (next q)) 0 [(0, 1)])

/-- The stored advice at bucket 0 / edge 0 of a trace state. -/
def adviceOf (o : Option Profile) : Option ℚ :=
  o.bind (fun q => (strategyGet q 0 0).map Strategy.advice)

/-- C7 scenario: witness a two-edge bucket, then store the (floored) regrets
`[MIN_POSITIVE, 2]` — both exactly representable in f32 — as `regret_vector`
would produce them. -/
def c7r2 : Option Profile :=
  update_regret (witness Profile.empty 0 [0, 1]) 0 [(0, minPositive), (1, 2)]

/-- C7 scenario: run the f32 regret-matching step and store its output with
`update_policy` — a training pass.  (At this input the `update_policy`
advice arithmetic is also f32-exact: epochs is 0, so every intermediate is
`0`, `p`, or `p / 1`, and the policy itself is stored verbatim.) -/
def c7p2 : Option Profile :=
  c7r2.bind (fun q => (policy_vectorF32 q (walker q) 0 [0, 1]).bind
    (fun v => update_policy q 0 v))

/-- C7 scenario: `reach` for edge 0 at a non-chance node of that bucket. -/
def c7reach2 : Option ℚ :=
  c7p2.bind (fun q => reach q (Player.choice 5) 0 0)

/-- C7 underflow scenario: with floored regrets `[MIN_POSITIVE, 2^100]` the
f32 regret-matching probability of edge 0 underflows to exactly 0. -/
def c7v3 : Option (List (Edge × ℚ)) :=
  (update_regret (witness Profile.empty 0 [0, 1]) 0 [(0, minPositive), (1, 2 ^ 100)]).bind
    (fun q => policy_vectorF32 q (walker q) 0 [0, 1])

/-- C8: a well-formed `.metric.pgcopy` artifact — 19-byte header (magic,
flags, extension), one 2-field row (pair key 7, distance bits 0x01020304),
trailer 0xFFFF. -/
def c8good : Bytes :=
  [80, 71, 67, 79, 80, 89, 10, 255, 13, 10, 0, 0, 0, 0, 0, 0, 0, 0, 0,
   0, 2, 0, 0, 0, 8, 0, 0, 0, 0, 0, 0, 0, 7, 0, 0, 0, 4, 1, 2, 3, 4, 255, 255]

/-- C8: the same artifact with its first header byte corrupted (80 → 81). -/
def c8bad : Bytes :=
  [81, 71, 67, 79, 80, 89, 10, 255, 13, 10, 0, 0, 0, 0, 0, 0, 0, 0, 0,
   0, 2, 0, 0, 0, 8, 0, 0, 0, 0, 0, 0, 0, 7, 0, 0, 0, 4, 1, 2, 3, 4, 255, 255]

/-- C8: the same artifact with the row's field-count corrupted (2 → 3). -/
def c8badCount : Bytes :=
  [80, 71, 67, 79, 80, 89, 10, 255, 13, 10, 0, 0, 0, 0, 0, 0, 0, 0, 0,
   0, 3, 0, 0, 0, 8, 0, 0, 0, 0, 0, 0, 0, 7, 0, 0, 0, 4, 1, 2, 3, 4, 255, 255]

/-! ## Lemmas about the association-list map model -/

theorem alookup_upsert_self {α β : Type} [DecidableEq α]
    (l : List (α × β)) (a : α) (d : β) (f : β → β) :
    alookup (upsert l a d f) a = some (f ((alookup l a).getD d)) := by
  induction l with
  | nil => simp [upsert, alookup]
  | cons kv rest ih =>
    obtain ⟨k, v⟩ := kv
    by_cases h : k = a
    · subst h
      simp [upsert, alookup]
    · simp [upsert, alookup, h, ih]

theorem alookup_upsert_ne {α β : Type} [DecidableEq α]
    (l : List (α × β)) (a a' : α) (d : β) (f : β → β) (h : a' ≠ a) :
    alookup (upsert l a d f) a' = alookup l a' := by
  induction l with
  | nil =>
    simp only [upsert, alookup]
    rw [if_neg (Ne.symm h)]
  | cons kv rest ih =>
    obtain ⟨k, v⟩ := kv
    by_cases hk : k = a
    · subst hk
      simp only [upsert, if_pos rfl, alookup]
      rw [if_neg (Ne.symm h), if_neg (Ne.symm h)]
    · simp only [upsert, if_neg hk, alookup]
      by_cases hk' : k = a'
      · simp [hk']
      · simp [hk', ih]

theorem amodify_spec {α β : Type} [DecidableEq α]
    (l : List (α × β)) (a : α) (f : β → Option β) (v v2 : β)
    (h : alookup l a = some v) (h2 : f v = some v2) :
    ∃ l2, amodify l a f = some l2 ∧ alookup l2 a = some v2 ∧
      ∀ a', a' ≠ a → alookup l2 a' = alookup l a' := by
  induction l with
  | nil => simp [alookup] at h
  | cons kv rest ih =>
    obtain ⟨k, w⟩ := kv
    by_cases hk : k = a
    · subst hk
      have hw : w = v := by simpa [alookup] using h
      subst hw
      refine ⟨(k, v2) :: rest, ?_, ?_, ?_⟩
      · simp [amodify, h2]
      · simp [alookup]
      · intro a' ha'
        simp only [alookup]
        rw [if_neg, if_neg] <;> intro hh <;> exact ha' hh.symm
    · simp only [alookup, if_neg hk] at h
      obtain ⟨l2, hl2, hlook, hframe⟩ := ih h
      refine ⟨(k, w) :: l2, ?_, ?_, ?_⟩
      · simp [amodify, if_neg hk, hl2]
      · simp only [alookup, if_neg hk]
        exact hlook
      · intro a' ha'
        simp only [alookup]
        by_cases hk' : k = a'
        · simp [hk']
        · simp only [if_neg hk']
          exact hframe a' ha'

theorem modifyStrategy_spec (p : Profile) (b : Bucket) (e : Edge)
    (g : Strategy → Strategy) (st : Strategy) (h : strategyGet p b e = some st) :
    ∃ q, modifyStrategy p b e g = some q ∧ q.iterations = p.iterations ∧
      strategyGet q b e = some (g st) ∧
      ∀ b' e', ¬(b' = b ∧ e' = e) → strategyGet q b' e' = strategyGet p b' e' := by
  unfold strategyGet at h
  cases hb : alookup p.strategies b with
  | none => rw [hb] at h; simp at h
  | some es =>
    rw [hb] at h
    replace h : alookup es e = some st := h
    obtain ⟨es2, hes2, hlook2, hframe2⟩ :=
      amodify_spec es e (fun x => some (g x)) st (g st) h rfl
    obtain ⟨s2, hs2, hlook1, hframe1⟩ :=
      amodify_spec p.strategies b (fun es => amodify es e (fun x => some (g x))) es es2 hb hes2
    refine ⟨{ p with strategies := s2 }, ?_, rfl, ?_, ?_⟩
    · simp [modifyStrategy, hs2]
    · simp [strategyGet, hlook1, hlook2]
    · intro b' e' hne
      by_cases hbb : b' = b
      · subst hbb
        have he' : e' ≠ e := fun hee => hne ⟨rfl, hee⟩
        simp [strategyGet, hlook1, hb, hframe2 e' he']
      · simp [strategyGet, hframe1 b' hbb]

/-! ## C10: witnessing a node with no outgoing edges -/

/-- C10: calling `witness` on a node whose outgoing edge set is empty leaves
the profile completely unchanged — no bucket entry is created, the iteration
counter is untouched, and the computation (including the uniform value
`1/0`) does not fail. -/
theorem c10_witness_no_edges (p : Profile) (b : Bucket) :
    witness p b [] = p := by
  unfold witness
  split
  · rfl
  · rfl

/-! ## C5: metric normalization -/

theorem le_foldl_max (l : List ℚ) (a : ℚ) : a ≤ l.foldl max a := by
  induction l generalizing a with
  | nil => simp
  | cons x xs ih =>
    calc a ≤ max a x := le_max_left a x
    _ ≤ xs.foldl max (max a x) := ih (max a x)
    _ = (x :: xs).foldl max a := rfl

theorem mem_le_foldl_max (l : List ℚ) (a x : ℚ) : x ∈ l → x ≤ l.foldl max a := by
  induction l generalizing a with
  | nil => intro hx; simp at hx
  | cons y ys ih =>
    intro hx
    rcases List.mem_cons.mp hx with h | h
    · subst h
      calc x ≤ max a x := le_max_right a x
      _ ≤ ys.foldl max (max a x) := le_foldl_max ys (max a x)
    · exact ih (max a y) h

theorem minPositive_pos : 0 < minPositive := by
  unfold minPositive
  positivity

/-- C5: `Metric::from` on a raw map of nonnegative distances divides every
entry by the maximum entry, so all stored values lie in `[0, 1]`; on the raw
distances `{P1: 2, P2: 4, P3: 8}` it stores `{P1: 1/4, P2: 1/2, P3: 1}`. -/
theorem c5_metric_normalization :
    (∀ m : List (PairK × ℚ), (∀ pr ∈ m, 0 ≤ pr.2) →
      ∀ pr ∈ metricFrom m, 0 ≤ pr.2 ∧ pr.2 ≤ 1)
    ∧ metricFrom [(1, 2), (2, 4), (3, 8)] = [(1, 1 / 4), (2, 1 / 2), (3, 1)] := by
  constructor
  · intro m hm pr hpr
    unfold metricFrom at hpr
    obtain ⟨pr0, hpr0, heq⟩ := List.mem_map.mp hpr
    set mx := (m.map Prod.snd).foldl max minPositive with hmx
    have hmxpos : 0 < mx := lt_of_lt_of_le minPositive_pos (le_foldl_max _ _)
    have hle : pr0.2 ≤ mx :=
      mem_le_foldl_max _ _ _ (List.mem_map.mpr ⟨pr0, hpr0, rfl⟩)
    have h0 : 0 ≤ pr0.2 := hm pr0 hpr0
    subst heq
    constructor
    · exact div_nonneg h0 (le_of_lt hmxpos)
    · exact (div_le_one hmxpos).mpr hle
  · norm_num [metricFrom, minPositive, List.foldl, max_def]

/-- C5 witness: the general bound applied to the concrete raw map. -/
theorem c5_metric_normalization_witness :
    (∀ pr ∈ [((1 : PairK), (2 : ℚ)), (2, 4), (3, 8)], 0 ≤ pr.2)
    ∧ ∀ pr ∈ metricFrom [(1, 2), (2, 4), (3, 8)], 0 ≤ pr.2 ∧ pr.2 ≤ 1 :=
  ⟨by decide, c5_metric_normalization.1 [(1, 2), (2, 4), (3, 8)] (by decide)⟩

/-! ## Lemmas about the `witness` fold -/

theorem witnessFold_frame (b : Bucket) (u : ℚ) :
    ∀ (edges : List Edge) (s : List (Bucket × List (Edge × Strategy))) (b' : Bucket),
      b' ≠ b → alookup (edges.foldl (witnessStep b u) s) b' = alookup s b' := by
  intro edges
  induction edges with
  | nil => intro s b' _; rfl
  | cons e0 rest ih =>
    intro s b' hb'
    calc alookup ((e0 :: rest).foldl (witnessStep b u) s) b'
        = alookup (rest.foldl (witnessStep b u) (witnessStep b u s e0)) b' := rfl
    _ = alookup (witnessStep b u s e0) b' := ih _ b' hb'
    _ = alookup s b' := alookup_upsert_ne _ _ _ _ _ hb'

theorem witnessFold_uniform (b : Bucket) (u : ℚ) :
    ∀ (edges : List Edge) (s : List (Bucket × List (Edge × Strategy))),
      (∀ e st, alookup ((alookup s b).getD []) e = some st →
        st = { regret := 0, policy := u, advice := 0 }) →
      ∀ e st, alookup ((alookup (edges.foldl (witnessStep b u) s) b).getD []) e = some st →
        st = { regret := 0, policy := u, advice := 0 } := by
  intro edges
  induction edges with
  | nil => intro s hs; exact hs
  | cons e0 rest ih =>
    intro s hs
    apply ih
    intro e st hlook
    simp only [witnessStep] at hlook
    rw [alookup_upsert_self] at hlook
    simp only [Option.getD_some] at hlook
    by_cases he : e = e0
    · subst he
      rw [alookup_upsert_self] at hlook
      cases hold : alookup ((alookup s b).getD []) e with
      | none =>
        rw [hold] at hlook
        simp only [Option.getD_none] at hlook
        cases hlook
        rfl
      | some st0 =>
        rw [hold] at hlook
        simp only [Option.getD_some] at hlook
        have := hs e st0 hold
        subst this
        cases hlook
        rfl
    · rw [alookup_upsert_ne _ _ _ _ _ he] at hlook
      exact hs e st hlook

theorem witnessStep_preserves (b : Bucket) (u : ℚ)
    (s : List (Bucket × List (Edge × Strategy))) (e0 e : Edge)
    (h : (alookup ((alookup s b).getD []) e).isSome) :
    (alookup ((alookup (witnessStep b u s e0) b).getD []) e).isSome := by
  simp only [witnessStep]
  rw [alookup_upsert_self]
  simp only [Option.getD_some]
  by_cases he : e = e0
  · subst he
    rw [alookup_upsert_self]
    simp
  · rw [alookup_upsert_ne _ _ _ _ _ he]
    exact h

theorem witnessFold_preserves (b : Bucket) (u : ℚ) :
    ∀ (edges : List Edge) (s : List (Bucket × List (Edge × Strategy))) (e : Edge),
      (alookup ((alookup s b).getD []) e).isSome →
      (alookup ((alookup (edges.foldl (witnessStep b u) s) b).getD []) e).isSome := by
  intro edges
  induction edges with
  | nil => intro s e h; exact h
  | cons e0 rest ih =>
    intro s e h
    exact ih _ e (witnessStep_preserves b u s e0 e h)

theorem witnessFold_mem (b : Bucket) (u : ℚ) :
    ∀ (edges : List Edge) (s : List (Bucket × List (Edge × Strategy))) (e : Edge),
      e ∈ edges →
      (alookup ((alookup (edges.foldl (witnessStep b u) s) b).getD []) e).isSome := by
  intro edges
  induction edges with
  | nil => intro s e h; simp at h
  | cons e0 rest ih =>
    intro s e h
    rcases List.mem_cons.mp h with h | h
    · subst h
      have hbase : (alookup ((alookup (witnessStep b u s e) b).getD []) e).isSome := by
        simp only [witnessStep]
        rw [alookup_upsert_self]
        simp only [Option.getD_some]
        rw [alookup_upsert_self]
        simp
      exact witnessFold_preserves b u rest (witnessStep b u s e) e hbase
    · exact ih _ e h

/-- When the bucket was unseen, `witness` makes every listed edge map to the
uniform strategy. -/
theorem witness_lookup_mem (p : Profile) (b : Bucket) (edges : List Edge) (e : Edge)
    (hb : alookup p.strategies b = none) (he : e ∈ edges) :
    strategyGet (witness p b edges) b e =
      some { regret := 0, policy := 1 / (edges.length : ℚ), advice := 0 } := by
  have hns : ¬(alookup p.strategies b).isSome := by rw [hb]; simp
  set u : ℚ := 1 / (edges.length : ℚ) with hu
  have hw : witness p b edges = { p with strategies := edges.foldl (witnessStep b u) p.strategies } := by
    unfold witness
    rw [if_neg hns]
  rw [hw]
  have hmem := witnessFold_mem b u edges p.strategies e he
  have huni := witnessFold_uniform b u edges p.strategies
    (by rw [hb]; intro e' st' h'; simp [alookup] at h')
  cases hfold : alookup (edges.foldl (witnessStep b u) p.strategies) b with
  | none =>
    rw [hfold] at hmem
    simp [alookup] at hmem
  | some es =>
    rw [hfold] at hmem huni
    simp only [Option.getD_some] at hmem huni
    cases hst : alookup es e with
    | none => rw [hst] at hmem; simp at hmem
    | some st =>
      have := huni e st hst
      subst this
      simp [strategyGet, hfold, hst]

/-- Any entry stored at a freshly witnessed bucket is the uniform strategy. -/
theorem witness_lookup_uniform (p : Profile) (b : Bucket) (edges : List Edge) (e : Edge)
    (st : Strategy) (hb : alookup p.strategies b = none)
    (h : strategyGet (witness p b edges) b e = some st) :
    st = { regret := 0, policy := 1 / (edges.length : ℚ), advice := 0 } ∧ edges ≠ [] := by
  have hns : ¬(alookup p.strategies b).isSome := by rw [hb]; simp
  set u : ℚ := 1 / (edges.length : ℚ) with hu
  have hw : witness p b edges = { p with strategies := edges.foldl (witnessStep b u) p.strategies } := by
    unfold witness
    rw [if_neg hns]
  rw [hw] at h
  have huni := witnessFold_uniform b u edges p.strategies
    (by rw [hb]; intro e' st' h'; simp [alookup] at h')
  constructor
  · unfold strategyGet at h
    cases hfold : alookup (edges.foldl (witnessStep b u) p.strategies) b with
    | none => rw [hfold] at h; simp at h
    | some es =>
      rw [hfold] at h
      replace h : alookup es e = some st := h
      rw [hfold] at huni
      simp only [Option.getD_some] at huni
      exact huni e st h
  · intro hemp
    subst hemp
    replace h : strategyGet { p with strategies := p.strategies } b e = some st := h
    unfold strategyGet at h
    simp only at h
    rw [hb] at h
    simp at h

/-- Buckets other than the witnessed one are untouched. -/
theorem witness_frame (p : Profile) (b : Bucket) (edges : List Edge) (b' : Bucket)
    (hb' : b' ≠ b) :
    alookup (witness p b edges).strategies b' = alookup p.strategies b' := by
  unfold witness
  split
  · rfl
  · exact witnessFold_frame b _ edges p.strategies b' hb'

/-! ## C9: witness initialization -/

/-- C9: `witness` is idempotent — when the bucket is already present the
profile is unchanged; when the bucket is unseen it creates a uniform
`1/n` policy with zero regret and zero advice for each of the `n` outgoing
edges, and `policy(node, edge)` then returns that uniform value. -/
theorem c9_witness_uniform :
    (∀ (p : Profile) (b : Bucket) (edges : List Edge),
      (alookup p.strategies b).isSome → witness p b edges = p)
    ∧ (∀ (p : Profile) (b : Bucket) (edges : List Edge) (e : Edge),
      alookup p.strategies b = none → e ∈ edges →
      strategyGet (witness p b edges) b e =
        some { regret := 0, policy := 1 / (edges.length : ℚ), advice := 0 })
    ∧ (∀ (p : Profile) (b : Bucket) (edges : List Edge) (e : Edge) (pl : Player),
      alookup p.strategies b = none → e ∈ edges →
      pl ≠ Player.chance → pl ≠ walker (witness p b edges) →
      policy (witness p b edges) pl b e = some (1 / (edges.length : ℚ))) := by
  refine ⟨?_, ?_, ?_⟩
  · intro p b edges h
    unfold witness
    rw [if_pos h]
  · exact witness_lookup_mem
  · intro p b edges e pl hb he hch hwk
    unfold policy
    rw [if_neg hch, if_neg hwk, witness_lookup_mem p b edges e hb he]
    rfl

/-- C9 witness: a fresh profile, a bucket with three outgoing edges. -/
theorem c9_witness_uniform_witness :
    (alookup Profile.empty.strategies 0 = none ∧ 1 ∈ [0, 1, 2]
      ∧ Player.choice 1 ≠ Player.chance
      ∧ Player.choice 1 ≠ walker (witness Profile.empty 0 [0, 1, 2]))
    ∧ policy (witness Profile.empty 0 [0, 1, 2]) (Player.choice 1) 0 1
        = some (1 / (([0, 1, 2] : List Edge).length : ℚ)) :=
  ⟨⟨rfl, by decide, by decide, by decide⟩,
    c9_witness_uniform.2.2 Profile.empty 0 [0, 1, 2] 1 (Player.choice 1)
      rfl (by decide) (by decide) (by decide)⟩

/-! ## Lemmas about the update folds -/

theorem amodify_succeeds {α β : Type} [DecidableEq α] :
    ∀ (l : List (α × β)) (a : α) (f : β → Option β) (l2 : List (α × β)),
      amodify l a f = some l2 → ∃ v v2, alookup l a = some v ∧ f v = some v2 := by
  intro l
  induction l with
  | nil => intro a f l2 h; simp [amodify] at h
  | cons kv rest ih =>
    intro a f l2 h
    obtain ⟨k, w⟩ := kv
    by_cases hk : k = a
    · subst hk
      simp only [amodify, if_pos rfl] at h
      cases hf : f w with
      | none => rw [hf] at h; simp at h
      | some w2 => exact ⟨w, w2, by simp [alookup], hf⟩
    · simp only [amodify, if_neg hk] at h
      cases hrest : amodify rest a f with
      | none => rw [hrest] at h; simp at h
      | some l2' =>
        obtain ⟨v, v2, hv, hv2⟩ := ih a f l2' hrest
        exact ⟨v, v2, by simpa [alookup, hk] using hv, hv2⟩

theorem modifyStrategy_succeeds (p : Profile) (b : Bucket) (e : Edge)
    (g : Strategy → Strategy) (q : Profile) (h : modifyStrategy p b e g = some q) :
    ∃ st, strategyGet p b e = some st := by
  unfold modifyStrategy at h
  cases hmod : amodify p.strategies b (fun es => amodify es e (fun st => some (g st))) with
  | none => rw [hmod] at h; simp at h
  | some s2 =>
    obtain ⟨es, es2, hes, hes2⟩ := amodify_succeeds p.strategies b _ s2 hmod
    obtain ⟨st, st2, hst, _⟩ := amodify_succeeds es e _ es2 hes2
    exact ⟨st, by simp [strategyGet, hes, hst]⟩

/-- Behaviour of one `update_*` fold: iterations are unchanged, untouched
bucket/edge pairs keep their strategies, and (for pairwise-distinct edges)
each listed edge ends with `g` applied to its pre-fold strategy. -/
theorem updateFold_spec (b : Bucket) (g : Strategy → ℚ → Strategy) :
    ∀ (v : List (Edge × ℚ)) (p q : Profile),
      v.foldlM (fun q pr => modifyStrategy q b pr.1 (fun st => g st pr.2)) p = some q →
      q.iterations = p.iterations
      ∧ (∀ b' e', (b' ≠ b ∨ e' ∉ v.map Prod.fst) →
          strategyGet q b' e' = strategyGet p b' e')
      ∧ ((v.map Prod.fst).Nodup →
          ∀ e π st, (e, π) ∈ v → strategyGet p b e = some st →
            strategyGet q b e = some (g st π)) := by
  intro v
  induction v with
  | nil =>
    intro p q h
    replace h : some p = some q := h
    cases h
    exact ⟨rfl, fun _ _ _ => rfl, fun _ e π st hmem _ => absurd hmem (List.not_mem_nil _)⟩
  | cons pr0 rest ih =>
    intro p q h
    obtain ⟨e0, π0⟩ := pr0
    replace h : (modifyStrategy p b e0 (fun st => g st π0)).bind
        (fun q0 => rest.foldlM (fun q pr => modifyStrategy q b pr.1 (fun st => g st pr.2)) q0)
        = some q := h
    cases hstep : modifyStrategy p b e0 (fun st => g st π0) with
    | none => rw [hstep] at h; simp at h
    | some q0 =>
      rw [hstep] at h
      replace h : rest.foldlM (fun q pr => modifyStrategy q b pr.1 (fun st => g st pr.2)) q0
          = some q := h
      obtain ⟨st0, hst0⟩ := modifyStrategy_succeeds p b e0 _ q0 hstep
      obtain ⟨q0', hq0', hit0, hlook0, hframe0⟩ :=
        modifyStrategy_spec p b e0 (fun st => g st π0) st0 hst0
      rw [hstep] at hq0'
      have hqq : q0 = q0' := Option.some.inj hq0'
      subst hqq
      obtain ⟨hit, hframe, hval⟩ := ih q0 q h
      refine ⟨hit.trans hit0, ?_, ?_⟩
      · intro b' e' hcond
        have hne : b' ≠ b ∨ (e' ≠ e0 ∧ e' ∉ rest.map Prod.fst) := by
          rcases hcond with hb' | he'
          · exact Or.inl hb'
          · refine Or.inr ⟨?_, ?_⟩
            · intro hee
              refine he' ?_
              rw [List.map_cons, hee]
              exact List.mem_cons_self _ _
            · intro hmem
              refine he' ?_
              rw [List.map_cons]
              exact List.mem_cons_of_mem _ hmem
        have hcond' : b' ≠ b ∨ e' ∉ rest.map Prod.fst := by
          rcases hne with hb' | ⟨_, hm⟩
          · exact Or.inl hb'
          · exact Or.inr hm
        have hstep' : ¬(b' = b ∧ e' = e0) := by
          rintro ⟨hb', he'⟩
          rcases hne with hcb | ⟨hce, _⟩
          · exact hcb hb'
          · exact hce he'
        rw [hframe b' e' hcond', hframe0 b' e' hstep']
      · intro hnd e π st hmem hget
        rw [List.map_cons] at hnd
        have hnd0 : e0 ∉ rest.map Prod.fst := (List.nodup_cons.mp hnd).1
        have hndr : (rest.map Prod.fst).Nodup := (List.nodup_cons.mp hnd).2
        rcases List.mem_cons.mp hmem with hh | hh
        · cases hh
          have hst : st0 = st := by
            rw [hget] at hst0
            exact (Option.some.inj hst0).symm
          rw [hframe b e0 (Or.inr hnd0), hlook0, hst]
        · have he0 : e ≠ e0 := by
            intro hee
            apply hnd0
            rw [← hee]
            exact List.mem_map.mpr ⟨(e, π), hh, rfl⟩
          have hmid : strategyGet q0 b e = some st := by
            rw [hframe0 b e (fun hc => he0 hc.2)]
            exact hget
          exact hval hndr e π st hh hmid

/-! ## C2: policy update and CFR+ averaging -/

/-- C2: for every already-witnessed bucket and edge, `update_policy` with
probability `π` at epoch `E = iterations / 2` overwrites the stored policy
with `π` and replaces the stored advice `a` by `(a * E + π) / (E + 1)`;
starting from advice 0, updates with policies 1, 1/2, 0, 1 at epochs
0, 1, 2, 3 give advice 1, 3/4, 1/2, 5/8. -/
theorem c2_update_policy :
    (∀ (p : Profile) (b : Bucket) (v : List (Edge × ℚ)) (q : Profile),
      update_policy p b v = some q → (v.map Prod.fst).Nodup →
      ∀ e π st, (e, π) ∈ v → strategyGet p b e = some st →
        strategyGet q b e =
          some ⟨st.regret, π, (st.advice * (epochs p : ℚ) + π) / ((epochs p : ℚ) + 1)⟩)
    ∧ (adviceOf c2p1 = some 1 ∧ adviceOf c2p2 = some (3 / 4)
      ∧ adviceOf c2p3 = some (1 / 2) ∧ adviceOf c2p4 = some (5 / 8))
    ∧ (c2p1.map epochs = some 0 ∧ c2p1.map (fun q => epochs (next (next q))) = some 1
      ∧ c2p2.map (fun q => epochs (next (next q))) = some 2
      ∧ c2p3.map (fun q => epochs (next (next q))) = some 3) := by
  refine ⟨?_, ?_, ?_⟩
  · intro p b v q h hnd e π st hmem hget
    replace h : v.foldlM (fun q pr => modifyStrategy q b pr.1
        (fun st => ⟨st.regret, pr.2,
          (st.advice * (epochs p : ℚ) + pr.2) / ((epochs p : ℚ) + 1)⟩)) p = some q := h
    exact (updateFold_spec b
      (fun st π => ⟨st.regret, π, (st.advice * (epochs p : ℚ) + π) / ((epochs p : ℚ) + 1)⟩)
      v p q h).2.2 hnd e π st hmem hget
  · refine ⟨?_, ?_, ?_, ?_⟩ <;>
    norm_num [adviceOf, c2p1, c2p2, c2p3, c2p4, update_policy, witness, witnessStep,
      epochs, next, Profile.empty, strategyGet, alookup, upsert, amodify,
      modifyStrategy, Strategy.default, List.foldlM]
  · refine ⟨?_, ?_, ?_, ?_⟩ <;>
    norm_num [adviceOf, c2p1, c2p2, c2p3, c2p4, update_policy, witness, witnessStep,
      epochs, next, Profile.empty, strategyGet, alookup, upsert, amodify,
      modifyStrategy, Strategy.default, List.foldlM]

/-- C2 witness: one concrete update at epoch 0 on a witnessed bucket. -/
theorem c2_update_policy_witness :
    (update_policy (witness Profile.empty 0 [0]) 0 [(0, 1)]
        = some ⟨0, [(0, [(0, ⟨0, 1, 1⟩)])]⟩
      ∧ (([((0 : Edge), (1 : ℚ))].map Prod.fst).Nodup)
      ∧ ((0 : Edge), (1 : ℚ)) ∈ [((0 : Edge), (1 : ℚ))]
      ∧ strategyGet (witness Profile.empty 0 [0]) 0 0 = some ⟨0, 1, 0⟩)
    ∧ strategyGet (⟨0, [(0, [(0, ⟨0, 1, 1⟩)])]⟩ : Profile) 0 0 = some ⟨0, 1, 1⟩ := by
  have h1 : update_policy (witness Profile.empty 0 [0]) 0 [(0, 1)]
      = some ⟨0, [(0, [(0, ⟨0, 1, 1⟩)])]⟩ := by
    norm_num [update_policy, witness, witnessStep, epochs, Profile.empty, alookup,
      upsert, amodify, modifyStrategy, Strategy.default, List.foldlM]
  have h4 : strategyGet (witness Profile.empty 0 [0]) 0 0 = some ⟨0, 1, 0⟩ := by
    norm_num [witness, witnessStep, Profile.empty, strategyGet, alookup, upsert,
      Strategy.default]
  refine ⟨⟨h1, by decide, by decide, h4⟩, ?_⟩
  have h5 := c2_update_policy.1 (witness Profile.empty 0 [0]) 0 [(0, 1)] _ h1 (by decide)
    0 1 ⟨0, 1, 0⟩ (by decide) h4
  rw [h5]
  norm_num [witness, witnessStep, Profile.empty, epochs, alookup]

/-! ## C1: regret-matching policy vector -/

theorem mapM_flooredRegret (p : Profile) (b : Bucket) :
    ∀ (edges : List Edge), (∀ e ∈ edges, (strategyGet p b e).isSome) →
      edges.mapM (fun e => (running_regret p b e).map (fun r => (e, max r minPositive)))
        = some (edges.map (fun e => (e, flooredRegret p b e))) := by
  intro edges
  induction edges with
  | nil => intro _; rfl
  | cons e0 rest ih =>
    intro hw
    have h0 : (strategyGet p b e0).isSome := hw e0 (List.mem_cons_self _ _)
    cases hst : strategyGet p b e0 with
    | none => rw [hst] at h0; simp at h0
    | some st =>
      have hrr : running_regret p b e0 = some st.regret := by
        simp [running_regret, hst]
      have hfl : flooredRegret p b e0 = max st.regret minPositive := by
        simp [flooredRegret, hst]
      have hih := ih (fun e he => hw e (List.mem_cons_of_mem _ he))
      simp only [List.mapM_cons, hrr, Option.map_some, Option.bind_eq_bind,
        Option.some_bind, hih, List.map_cons, hfl]
      rfl

theorem sum_map_div (l : List ℚ) (s : ℚ) : (l.map (fun x => x / s)).sum = l.sum / s := by
  induction l with
  | nil => simp
  | cons x xs ih => simp [ih, add_div]

theorem sum_map_constant {α : Type} (l : List α) (c : ℚ) :
    (l.map (fun _ => c)).sum = (l.length : ℚ) * c := by
  induction l with
  | nil => simp
  | cons x xs ih =>
    simp only [List.map_cons, List.sum_cons, ih, List.length_cons]
    push_cast
    ring

theorem flooredRegret_ge (p : Profile) (b : Bucket) (e : Edge) :
    minPositive ≤ flooredRegret p b e := le_max_right _ _

theorem flooredSum_pos (p : Profile) (b : Bucket) (edges : List Edge) (h : edges ≠ []) :
    0 < flooredSum p b edges := by
  unfold flooredSum
  apply List.sum_pos
  · intro x hx
    obtain ⟨e, _, hfe⟩ := List.mem_map.mp hx
    exact lt_of_lt_of_le minPositive_pos (hfe ▸ flooredRegret_ge p b e)
  · simpa using h

/-- C1: for an infoset of the current walker whose bucket and outgoing edges
have all been witnessed, `policy_vector` returns `r(e) / Σ r` with `r` the
running regret floored at `MIN_POSITIVE`; the probabilities sum to 1, and
when every running regret is ≤ 0 the vector is uniform `1/n`. -/
theorem c1_policy_vector (p : Profile) (b : Bucket) (edges : List Edge) (pl : Player)
    (hpl : pl = walker p) (hne : edges ≠ [])
    (hw : ∀ e ∈ edges, (strategyGet p b e).isSome) :
    policy_vector p pl b edges
      = some (edges.map (fun e => (e, flooredRegret p b e / flooredSum p b edges)))
    ∧ (edges.map (fun e => flooredRegret p b e / flooredSum p b edges)).sum = 1
    ∧ ((∀ e st, e ∈ edges → strategyGet p b e = some st → st.regret ≤ 0) →
        edges.map (fun e => (e, flooredRegret p b e / flooredSum p b edges))
          = edges.map (fun e => (e, 1 / (edges.length : ℚ)))) := by
  have hsum : ((edges.map (fun e => (e, flooredRegret p b e))).map Prod.snd).sum
      = flooredSum p b edges := by
    rw [List.map_map]
    rfl
  refine ⟨?_, ?_, ?_⟩
  · unfold policy_vector
    rw [if_pos hpl, mapM_flooredRegret p b edges hw]
    simp only [hsum, List.map_map]
    rfl
  · have : (edges.map (fun e => flooredRegret p b e / flooredSum p b edges))
        = (edges.map (flooredRegret p b)).map (fun x => x / flooredSum p b edges) := by
      rw [List.map_map]
      rfl
    rw [this, sum_map_div]
    exact div_self (ne_of_gt (flooredSum_pos p b edges hne))
  · intro hreg
    have hfl : ∀ e ∈ edges, flooredRegret p b e = minPositive := by
      intro e he
      have h0 : (strategyGet p b e).isSome := hw e he
      cases hst : strategyGet p b e with
      | none => rw [hst] at h0; simp at h0
      | some st =>
        have := hreg e st he hst
        simp only [flooredRegret, hst, Option.map_some, Option.getD_some]
        exact max_eq_right (le_trans this (le_of_lt minPositive_pos))
    have hS : flooredSum p b edges = (edges.length : ℚ) * minPositive := by
      unfold flooredSum
      rw [List.map_congr_left (fun e he => hfl e he)]
      exact sum_map_constant edges minPositive
    have hl : 0 < (edges.length : ℚ) := by
      exact_mod_cast List.length_pos.mpr hne
    have hdiv : minPositive / ((edges.length : ℚ) * minPositive) = 1 / (edges.length : ℚ) := by
      rw [div_eq_div_iff (ne_of_gt (mul_pos hl minPositive_pos)) (ne_of_gt hl)]
      ring
    apply List.map_congr_left
    intro e he
    rw [hfl e he, hS, hdiv]

/-- C1 witness: a freshly witnessed two-edge bucket (running regrets 0). -/
theorem c1_policy_vector_witness :
    (Player.choice 0 = walker (witness Profile.empty 0 [0, 1])
      ∧ ([0, 1] : List Edge) ≠ []
      ∧ ∀ e ∈ ([0, 1] : List Edge),
          (strategyGet (witness Profile.empty 0 [0, 1]) 0 e).isSome)
    ∧ policy_vector (witness Profile.empty 0 [0, 1]) (Player.choice 0) 0 [0, 1]
        = some (([0, 1] : List Edge).map (fun e =>
            (e, flooredRegret (witness Profile.empty 0 [0, 1]) 0 e
              / flooredSum (witness Profile.empty 0 [0, 1]) 0 [0, 1]))) := by
  have h1 : Player.choice 0 = walker (witness Profile.empty 0 [0, 1]) := rfl
  have h3 : ∀ e ∈ ([0, 1] : List Edge),
      (strategyGet (witness Profile.empty 0 [0, 1]) 0 e).isSome := by
    intro e he
    rcases List.mem_cons.mp he with h | h
    · subst h; rfl
    · rcases List.mem_cons.mp h with h | h
      · subst h; rfl
      · simp at h
  exact ⟨⟨h1, by decide, h3⟩,
    (c1_policy_vector (witness Profile.empty 0 [0, 1]) 0 [0, 1] (Player.choice 0)
      h1 (by decide) h3).1⟩

/-! ## C7: reach values -/

/-! Lemmas about the binary32 rounding model. -/

theorem rne_add_small (m : ℤ) (r : ℚ) (h0 : 0 ≤ r) (h1 : r < 1 / 2) :
    rne ((m : ℚ) + r) = m := by
  have hf : ⌊(m : ℚ) + r⌋ = m := by
    rw [add_comm, Int.floor_add_int]
    have : ⌊r⌋ = 0 := Int.floor_eq_zero_iff.mpr ⟨h0, lt_trans h1 (by norm_num)⟩
    omega
  unfold rne
  rw [hf]
  have hsub : (m : ℚ) + r - (m : ℚ) = r := by ring
  rw [hsub, if_pos h1]

theorem rne_cases (q : ℚ) : rne q = ⌊q⌋ ∨ rne q = ⌊q⌋ + 1 := by
  unfold rne
  split
  · exact Or.inl rfl
  · split
    · exact Or.inr rfl
    · split
      · exact Or.inl rfl
      · exact Or.inr rfl

theorem rne_nonneg (q : ℚ) (h : 0 ≤ q) : 0 ≤ rne q := by
  have hf : 0 ≤ ⌊q⌋ := Int.floor_nonneg.mpr h
  rcases rne_cases q with hc | hc <;> omega

theorem Intlog2_char (x : ℚ) (e : ℤ) (hx : 0 < x)
    (h1 : 2 ^ e ≤ x) (h2 : x < 2 ^ (e + 1)) : Int.log 2 x = e := by
  have hb : (1 : ℕ) < 2 := one_lt_two
  have hcast : ((2 : ℕ) : ℚ) = (2 : ℚ) := by norm_num
  have hle : e ≤ Int.log 2 x := by
    rw [← Int.zpow_le_iff_le_log hb hx, hcast]
    exact h1
  have hlt : Int.log 2 x < e + 1 := by
    rw [← Int.lt_zpow_iff_log_lt hb hx, hcast]
    exact h2
  omega

/-- Evaluation rule for `roundF32`: locate the binade, split the scaled
value into integer part and sub-half remainder. -/
theorem roundF32_eval (x : ℚ) (e : ℤ) (m : ℤ) (r : ℚ)
    (hx : 0 < x) (h1 : 2 ^ e ≤ x) (h2 : x < 2 ^ (e + 1))
    (hsplit : x / 2 ^ (max e (-126) - 23) = (m : ℚ) + r)
    (h0r : 0 ≤ r) (hr : r < 1 / 2) :
    roundF32 x = (m : ℚ) * 2 ^ (max e (-126) - 23) := by
  unfold roundF32 ulpF32
  rw [abs_of_pos hx, Intlog2_char x e hx h1 h2, hsplit, rne_add_small m r h0r hr]

theorem roundF32_nonneg (x : ℚ) (h : 0 ≤ x) : 0 ≤ roundF32 x := by
  have hu : (0 : ℚ) < ulpF32 x := by
    unfold ulpF32
    exact zpow_pos (by norm_num) _
  have hq : (0 : ℚ) ≤ x / ulpF32 x := div_nonneg h (le_of_lt hu)
  have hn : 0 ≤ rne (x / ulpF32 x) := rne_nonneg _ hq
  unfold roundF32
  exact mul_nonneg (by exact_mod_cast hn) (le_of_lt hu)

theorem sumF32_fold_nonneg :
    ∀ (l : List ℚ) (acc : ℚ), 0 ≤ acc → (∀ x ∈ l, 0 ≤ x) →
      0 ≤ l.foldl (fun a x => roundF32 (a + x)) acc := by
  intro l
  induction l with
  | nil => intro acc h _; exact h
  | cons x xs ih =>
    intro acc hacc hall
    exact ih (roundF32 (acc + x))
      (roundF32_nonneg _ (add_nonneg hacc (hall x (List.mem_cons_self _ _))))
      (fun y hy => hall y (List.mem_cons_of_mem _ hy))

theorem sumF32_nonneg (l : List ℚ) (h : ∀ x ∈ l, 0 ≤ x) : 0 ≤ sumF32 l :=
  sumF32_fold_nonneg l 0 le_rfl h

/-! Concrete binary32 roundings used by the C7 scenarios. -/

theorem roundF32_minPositive : roundF32 minPositive = minPositive := by
  have h := roundF32_eval minPositive (-126) (2 ^ 23) 0
    (by norm_num [minPositive]) (by norm_num [minPositive, zpow_neg])
    (by norm_num [minPositive, zpow_neg]) (by norm_num [minPositive, zpow_neg])
    le_rfl (by norm_num)
  rw [h]
  norm_num [minPositive, zpow_neg]

theorem roundF32_minPositive_add_two : roundF32 (minPositive + 2) = 2 := by
  have h := roundF32_eval (minPositive + 2) 1 (2 ^ 23) (1 / 2 ^ 104)
    (by norm_num [minPositive]) (by norm_num [minPositive, zpow_neg])
    (by norm_num [minPositive, zpow_neg]) (by norm_num [minPositive, zpow_neg])
    (by norm_num) (by norm_num)
  rw [h]
  norm_num [zpow_neg]

theorem roundF32_half_minPositive : roundF32 (minPositive / 2) = 1 / 2 ^ 127 := by
  have h := roundF32_eval (minPositive / 2) (-127) (2 ^ 22) 0
    (by norm_num [minPositive]) (by norm_num [minPositive, zpow_neg])
    (by norm_num [minPositive, zpow_neg]) (by norm_num [minPositive, zpow_neg])
    le_rfl (by norm_num)
  rw [h]
  norm_num [zpow_neg]

theorem roundF32_one : roundF32 1 = 1 := by
  have h := roundF32_eval 1 0 (2 ^ 23) 0
    (by norm_num) (by norm_num) (by norm_num) (by norm_num [zpow_neg])
    le_rfl (by norm_num)
  rw [h]
  norm_num [zpow_neg]

theorem roundF32_minPositive_add_big : roundF32 (minPositive + 2 ^ 100) = 2 ^ 100 := by
  have h := roundF32_eval (minPositive + 2 ^ 100) 100 (2 ^ 23) (1 / 2 ^ 203)
    (by norm_num [minPositive]) (by norm_num [minPositive])
    (by norm_num [minPositive]) (by norm_num [minPositive, zpow_neg])
    (by norm_num) (by norm_num)
  rw [h]
  norm_num [zpow_neg]

theorem roundF32_tiny_underflow : roundF32 (minPositive / 2 ^ 100) = 0 := by
  have h := roundF32_eval (minPositive / 2 ^ 100) (-226) 0 (1 / 2 ^ 77)
    (by norm_num [minPositive]) (by norm_num [minPositive, zpow_neg])
    (by norm_num [minPositive, zpow_neg]) (by norm_num [minPositive, zpow_neg])
    (by norm_num) (by norm_num)
  rw [h]
  norm_num

/-! The nonnegativity invariant. -/

theorem updateFold_nonneg (b : Bucket) (g : Strategy → ℚ → Strategy) :
    ∀ (v : List (Edge × ℚ)) (p q : Profile),
      (∀ pr ∈ v, ∀ st : Strategy, 0 ≤ st.policy → 0 ≤ (g st pr.2).policy) →
      nonnegInv p →
      v.foldlM (fun q pr => modifyStrategy q b pr.1 (fun st => g st pr.2)) p = some q →
      nonnegInv q := by
  intro v
  induction v with
  | nil =>
    intro p q _ hp h
    replace h : some p = some q := h
    cases h
    exact hp
  | cons pr0 rest ih =>
    intro p q hg hp h
    obtain ⟨e0, π0⟩ := pr0
    replace h : (modifyStrategy p b e0 (fun st => g st π0)).bind
        (fun q0 => rest.foldlM (fun q pr => modifyStrategy q b pr.1 (fun st => g st pr.2)) q0)
        = some q := h
    cases hstep : modifyStrategy p b e0 (fun st => g st π0) with
    | none => rw [hstep] at h; simp at h
    | some q0 =>
      rw [hstep] at h
      replace h : rest.foldlM (fun q pr => modifyStrategy q b pr.1 (fun st => g st pr.2)) q0
          = some q := h
      obtain ⟨st0, hst0⟩ := modifyStrategy_succeeds p b e0 _ q0 hstep
      obtain ⟨q0Q, hq0Q, _, hlook0, hframe0⟩ :=
        modifyStrategy_spec p b e0 (fun st => g st π0) st0 hst0
      rw [hstep] at hq0Q
      have hqq : q0 = q0Q := Option.some.inj hq0Q
      subst hqq
      have hp0 : nonnegInv q0 := by
        intro b' e' st' hst'
        by_cases hc : b' = b ∧ e' = e0
        · obtain ⟨hb', he'⟩ := hc
          rw [hb', he', hlook0] at hst'
          cases hst'
          exact hg (e0, π0) (List.mem_cons_self _ _) st0 (hp b e0 st0 hst0)
        · rw [hframe0 b' e' hc] at hst'
          exact hp b' e' st' hst'
      exact ih q0 q (fun pr hpr => hg pr (List.mem_cons_of_mem _ hpr)) hp0 h

theorem mapM_regret_bounds (p : Profile) (b : Bucket) :
    ∀ (edges : List Edge) (regrets : List (Edge × ℚ)),
      edges.mapM (fun e => (running_regret p b e).map (fun r => (e, max r minPositive)))
        = some regrets →
      ∀ pr ∈ regrets, minPositive ≤ pr.2 := by
  intro edges
  induction edges with
  | nil =>
    intro regrets h pr hpr
    replace h : some [] = some regrets := h
    cases h
    simp at hpr
  | cons e0 rest ih =>
    intro regrets h pr hpr
    cases hrr : running_regret p b e0 with
    | none =>
      rw [List.mapM_cons, hrr] at h
      simp at h
    | some r0 =>
      rw [List.mapM_cons, hrr] at h
      cases hrest : rest.mapM
          (fun e => (running_regret p b e).map (fun r => (e, max r minPositive))) with
      | none => rw [hrest] at h; simp at h
      | some tl =>
        rw [hrest] at h
        replace h : some ((e0, max r0 minPositive) :: tl) = some regrets := h
        cases h
        rcases List.mem_cons.mp hpr with hh | hh
        · subst hh
          exact le_max_right _ _
        · exact ih tl hrest pr hh

/-- C7 amended: reach values are nonnegative (1 at chance nodes), though not
bounded below by `MIN_POSITIVE`: `reach` returns the stored policy with no
`MIN_POSITIVE` fallback (the fallback lives in `Profile::policy`, which
`reach` does not call), and under binary32 rounding the regret-matching
probabilities stored by `update_policy` can fall below `MIN_POSITIVE` and
even underflow to exactly 0.  A fresh profile satisfies the nonnegativity
invariant, `witness`, `update_regret`, and `update_policy` with any f32
`policy_vector` output preserve it, and under the invariant `reach` only
returns nonnegative probabilities. -/
theorem c7_reach_nonneg :
    nonnegInv Profile.empty
    ∧ (∀ (p : Profile) (b : Bucket) (edges : List Edge), nonnegInv p →
        nonnegInv (witness p b edges))
    ∧ (∀ (p q : Profile) (b : Bucket) (v : List (Edge × ℚ)), nonnegInv p →
        update_regret p b v = some q → nonnegInv q)
    ∧ (∀ (p : Profile) (pl : Player) (b : Bucket) (edges : List Edge)
        (v : List (Edge × ℚ)), policy_vectorF32 p pl b edges = some v →
        ∀ pr ∈ v, 0 ≤ pr.2)
    ∧ (∀ (p q : Profile) (b : Bucket) (v : List (Edge × ℚ)), nonnegInv p →
        (∀ pr ∈ v, 0 ≤ pr.2) → update_policy p b v = some q → nonnegInv q)
    ∧ (∀ (p : Profile) (pl : Player) (b : Bucket) (e : Edge) (r : ℚ), nonnegInv p →
        reach p pl b e = some r → 0 ≤ r) := by
  refine ⟨?_, ?_, ?_, ?_, ?_, ?_⟩
  · intro b e st h
    simp [strategyGet, Profile.empty, alookup] at h
  · intro p b edges hp b' e' st' hst'
    by_cases hb : (alookup p.strategies b).isSome
    · have hw : witness p b edges = p := by
        unfold witness
        rw [if_pos hb]
      rw [hw] at hst'
      exact hp b' e' st' hst'
    · have hbn : alookup p.strategies b = none := by
        cases hx : alookup p.strategies b with
        | none => rfl
        | some _ => rw [hx] at hb; simp at hb
      by_cases hb' : b' = b
      · subst hb'
        obtain ⟨hst, _⟩ := witness_lookup_uniform p b' edges e' st' hbn hst'
        rw [hst]
        exact one_div_nonneg.mpr (Nat.cast_nonneg _)
      · have hfr : strategyGet (witness p b edges) b' e' = strategyGet p b' e' := by
          unfold strategyGet
          rw [witness_frame p b edges b' hb']
        rw [hfr] at hst'
        exact hp b' e' st' hst'
  · intro p q b v hp h
    replace h : v.foldlM (fun q pr => modifyStrategy q b pr.1
        (fun st => ⟨pr.2, st.policy, st.advice⟩)) p = some q := h
    exact updateFold_nonneg b (fun st r => ⟨r, st.policy, st.advice⟩) v p q
      (fun pr hpr st hst => hst) hp h
  · intro p pl b edges v h pr hpr
    unfold policy_vectorF32 at h
    by_cases hpl : pl = walker p
    · rw [if_pos hpl] at h
      cases hmm : edges.mapM
          (fun e => (running_regret p b e).map (fun r => (e, max r minPositive))) with
      | none => rw [hmm] at h; simp at h
      | some regrets =>
        rw [hmm] at h
        simp only [Option.some.injEq] at h
        subst h
        obtain ⟨pr0, hpr0, heq⟩ := List.mem_map.mp hpr
        have hb0 : minPositive ≤ pr0.2 := mapM_regret_bounds p b edges regrets hmm pr0 hpr0
        have hsnn : 0 ≤ sumF32 (regrets.map Prod.snd) := by
          apply sumF32_nonneg
          intro x hx
          obtain ⟨pr1, hpr1, hx1⟩ := List.mem_map.mp hx
          exact le_trans (le_of_lt minPositive_pos)
            (hx1 ▸ mapM_regret_bounds p b edges regrets hmm pr1 hpr1)
        subst heq
        exact roundF32_nonneg _
          (div_nonneg (le_trans (le_of_lt minPositive_pos) hb0) hsnn)
    · rw [if_neg hpl] at h
      simp at h
  · intro p q b v hp hv h
    replace h : v.foldlM (fun q pr => modifyStrategy q b pr.1
        (fun st => ⟨st.regret, pr.2,
          (st.advice * (epochs p : ℚ) + pr.2) / ((epochs p : ℚ) + 1)⟩)) p = some q := h
    exact updateFold_nonneg b
      (fun st π => ⟨st.regret, π, (st.advice * (epochs p : ℚ) + π) / ((epochs p : ℚ) + 1)⟩)
      v p q (fun pr hpr st _ => hv pr hpr) hp h
  · intro p pl b e r hp h
    unfold reach at h
    by_cases hpl : pl = Player.chance
    · rw [if_pos hpl] at h
      cases h
      norm_num
    · rw [if_neg hpl] at h
      cases hst : strategyGet p b e with
      | none => rw [hst] at h; simp at h
      | some st =>
        rw [hst] at h
        replace h : some st.policy = some r := h
        cases h
        exact hp b e st hst

/-- C7 witness: nonnegativity of a concrete reach, derived through the
invariant chain starting from the fresh profile. -/
theorem c7_reach_nonneg_witness :
    reach (witness Profile.empty 0 [0, 1]) (Player.choice 5) 0 0 = some (1 / 2)
    ∧ (0 : ℚ) ≤ 1 / 2 := by
  have heval : reach (witness Profile.empty 0 [0, 1]) (Player.choice 5) 0 0
      = some (1 / 2) := by
    norm_num [reach, witness, witnessStep, Profile.empty, strategyGet, alookup,
      upsert, Strategy.default]
    decide
  refine ⟨heval, ?_⟩
  exact c7_reach_nonneg.2.2.2.2.2 (witness Profile.empty 0 [0, 1]) (Player.choice 5)
    0 0 (1 / 2)
    (c7_reach_nonneg.2.1 Profile.empty 0 [0, 1] c7_reach_nonneg.1)
    heval

/-- C7 counterexample, traced in binary32 arithmetic.  After witnessing a
two-edge bucket and storing the floored regrets `[MIN_POSITIVE, 2]`, the
f32 regret-matching step computes the sum `MIN_POSITIVE + 2`, which rounds
to exactly `2`, and then the policy `MIN_POSITIVE / 2 = 2^(-127)` — an
exactly representable subnormal strictly below `MIN_POSITIVE` — which
`update_policy` stores verbatim and `reach` returns.  With floored regrets
`[MIN_POSITIVE, 2^100]` the same step underflows the stored policy to
exactly 0.  The claim that every reach is at least `MIN_POSITIVE` is
therefore false, and reach values are not even strictly positive. -/
theorem c7_reach_counterexample :
    c7reach2 = some (1 / 2 ^ 127)
    ∧ (1 / 2 ^ 127 : ℚ) < minPositive
    ∧ c7v3 = some [(0, 0), (1, 1)] := by
  have hm2 : max (2 : ℚ) minPositive = 2 := max_eq_left (by norm_num [minPositive])
  have hr2 : c7r2 = some ⟨0, [(0, [(0, ⟨minPositive, 1 / 2, 0⟩), (1, ⟨2, 1 / 2, 0⟩)])]⟩ := by
    norm_num [c7r2, update_regret, witness, witnessStep, Profile.empty, alookup,
      upsert, amodify, modifyStrategy, Strategy.default, List.foldlM]
  have hv0 : policy_vectorF32
      (⟨0, [(0, [(0, ⟨minPositive, 1 / 2, 0⟩), (1, ⟨2, 1 / 2, 0⟩)])]⟩ : Profile)
      (walker ⟨0, [(0, [(0, ⟨minPositive, 1 / 2, 0⟩), (1, ⟨2, 1 / 2, 0⟩)])]⟩) 0 [0, 1]
      = some [(0, roundF32 (max minPositive minPositive
          / sumF32 [max minPositive minPositive, max (2 : ℚ) minPositive])),
        (1, roundF32 (max (2 : ℚ) minPositive
          / sumF32 [max minPositive minPositive, max (2 : ℚ) minPositive]))] := rfl
  have hv : policy_vectorF32
      (⟨0, [(0, [(0, ⟨minPositive, 1 / 2, 0⟩), (1, ⟨2, 1 / 2, 0⟩)])]⟩ : Profile)
      (walker ⟨0, [(0, [(0, ⟨minPositive, 1 / 2, 0⟩), (1, ⟨2, 1 / 2, 0⟩)])]⟩) 0 [0, 1]
      = some [(0, 1 / 2 ^ 127), (1, 1)] := by
    rw [hv0, max_self, hm2]
    simp only [sumF32, List.foldl_cons, List.foldl_nil, zero_add,
      roundF32_minPositive, roundF32_minPositive_add_two]
    rw [roundF32_half_minPositive, show (2 : ℚ) / 2 = 1 by norm_num, roundF32_one]
  have hup : update_policy
      (⟨0, [(0, [(0, ⟨minPositive, 1 / 2, 0⟩), (1, ⟨2, 1 / 2, 0⟩)])]⟩ : Profile)
      0 [(0, 1 / 2 ^ 127), (1, 1)]
      = some ⟨0, [(0, [(0, ⟨minPositive, 1 / 2 ^ 127, 1 / 2 ^ 127⟩), (1, ⟨2, 1, 1⟩)])]⟩ := by
    norm_num [update_policy, epochs, modifyStrategy, amodify, alookup, List.foldlM]
  have hreach : reach
      (⟨0, [(0, [(0, ⟨minPositive, 1 / 2 ^ 127, 1 / 2 ^ 127⟩), (1, ⟨2, 1, 1⟩)])]⟩ : Profile)
      (Player.choice 5) 0 0 = some (1 / 2 ^ 127) := by
    norm_num [reach, strategyGet, alookup]
    decide
  have hp2 : c7p2
      = some ⟨0, [(0, [(0, ⟨minPositive, 1 / 2 ^ 127, 1 / 2 ^ 127⟩), (1, ⟨2, 1, 1⟩)])]⟩ := by
    unfold c7p2
    rw [hr2]
    show (policy_vectorF32
        (⟨0, [(0, [(0, ⟨minPositive, 1 / 2, 0⟩), (1, ⟨2, 1 / 2, 0⟩)])]⟩ : Profile)
        (walker ⟨0, [(0, [(0, ⟨minPositive, 1 / 2, 0⟩), (1, ⟨2, 1 / 2, 0⟩)])]⟩) 0 [0, 1]).bind
        (fun v => update_policy
          (⟨0, [(0, [(0, ⟨minPositive, 1 / 2, 0⟩), (1, ⟨2, 1 / 2, 0⟩)])]⟩ : Profile) 0 v)
      = some ⟨0, [(0, [(0, ⟨minPositive, 1 / 2 ^ 127, 1 / 2 ^ 127⟩), (1, ⟨2, 1, 1⟩)])]⟩
    rw [hv]
    exact hup
  refine ⟨?_, by norm_num [minPositive], ?_⟩
  · unfold c7reach2
    rw [hp2]
    exact hreach
  · have hm3 : max ((2 : ℚ) ^ 100) minPositive = 2 ^ 100 :=
      max_eq_left (by norm_num [minPositive])
    have hr3 : update_regret (witness Profile.empty 0 [0, 1]) 0 [(0, minPositive), (1, 2 ^ 100)]
        = some ⟨0, [(0, [(0, ⟨minPositive, 1 / 2, 0⟩), (1, ⟨2 ^ 100, 1 / 2, 0⟩)])]⟩ := by
      norm_num [update_regret, witness, witnessStep, Profile.empty, alookup,
        upsert, amodify, modifyStrategy, Strategy.default, List.foldlM]
    have hv30 : policy_vectorF32
        (⟨0, [(0, [(0, ⟨minPositive, 1 / 2, 0⟩), (1, ⟨2 ^ 100, 1 / 2, 0⟩)])]⟩ : Profile)
        (walker ⟨0, [(0, [(0, ⟨minPositive, 1 / 2, 0⟩), (1, ⟨2 ^ 100, 1 / 2, 0⟩)])]⟩) 0 [0, 1]
        = some [(0, roundF32 (max minPositive minPositive
            / sumF32 [max minPositive minPositive, max ((2 : ℚ) ^ 100) minPositive])),
          (1, roundF32 (max ((2 : ℚ) ^ 100) minPositive
            / sumF32 [max minPositive minPositive, max ((2 : ℚ) ^ 100) minPositive]))] := rfl
    have hv3 : policy_vectorF32
        (⟨0, [(0, [(0, ⟨minPositive, 1 / 2, 0⟩), (1, ⟨2 ^ 100, 1 / 2, 0⟩)])]⟩ : Profile)
        (walker ⟨0, [(0, [(0, ⟨minPositive, 1 / 2, 0⟩), (1, ⟨2 ^ 100, 1 / 2, 0⟩)])]⟩) 0 [0, 1]
        = some [(0, 0), (1, 1)] := by
      rw [hv30, max_self, hm3]
      simp only [sumF32, List.foldl_cons, List.foldl_nil, zero_add,
        roundF32_minPositive, roundF32_minPositive_add_big]
      rw [roundF32_tiny_underflow, show ((2 : ℚ) ^ 100) / 2 ^ 100 = 1 by norm_num,
        roundF32_one]
    unfold c7v3
    rw [hr3]
    show policy_vectorF32
        (⟨0, [(0, [(0, ⟨minPositive, 1 / 2, 0⟩), (1, ⟨2 ^ 100, 1 / 2, 0⟩)])]⟩ : Profile)
        (walker ⟨0, [(0, [(0, ⟨minPositive, 1 / 2, 0⟩), (1, ⟨2 ^ 100, 1 / 2, 0⟩)])]⟩) 0 [0, 1]
      = some [(0, 0), (1, 1)]
    exact hv3

/-! ## C6: relative reach along a path -/

/-- C6: `relative_reach(n, n) = 1` for every node, and whenever `leaf`
descends from `root` and no node on the chain shares `root`'s bucket except
`root` itself (which holds for the system's path-structured buckets, where
an ancestor's path is a strict prefix of its descendant's),
`relative_reach` equals the spec's step-by-step product of
`reach(parent, incoming)` along the path from `root` to `leaf`. -/
theorem c6_relative_reach :
    (∀ (p : Profile) (n : GNode), relative_reach p n n = some 1)
    ∧ (∀ (p : Profile) (root leaf : GNode),
        root ∈ leaf.chain →
        (∀ m ∈ leaf.chain, m.bucket = root.bucket → m = root) →
        relative_reach p root leaf = pathReachProduct p root leaf) := by
  constructor
  · intro p n
    cases n with
    | base b pl => simp [relative_reach]
    | child h e b pl => simp [relative_reach]
  · intro p root leaf
    induction leaf with
    | base b pl =>
      intro hmem hinj
      have hroot : root = GNode.base b pl := by
        have : GNode.chain (GNode.base b pl) = [GNode.base b pl] := rfl
        rw [this] at hmem
        simpa using hmem
      subst hroot
      simp [relative_reach, pathReachProduct]
    | child h e b pl ih =>
      intro hmem hinj
      by_cases hb : root.bucket = (GNode.child h e b pl).bucket
      · have hre : GNode.child h e b pl = root :=
          hinj (GNode.child h e b pl) (List.mem_cons_self _ _) hb.symm
        rw [show relative_reach p root (GNode.child h e b pl)
              = if root.bucket = (GNode.child h e b pl).bucket then some 1
                else (relative_reach p root h).bind
                  (fun r => (reachAt p h e).map (fun q => r * q)) from rfl]
        rw [show pathReachProduct p root (GNode.child h e b pl)
              = if GNode.child h e b pl = root then some 1
                else (pathReachProduct p root h).bind
                  (fun r => (reachAt p h e).map (fun q => r * q)) from rfl]
        rw [if_pos hb, if_pos hre]
      · have hne : GNode.child h e b pl ≠ root := by
          intro hh
          exact hb (by rw [hh])
        have hmem' : root ∈ h.chain := by
          have : GNode.chain (GNode.child h e b pl)
              = GNode.child h e b pl :: h.chain := rfl
          rw [this] at hmem
          rcases List.mem_cons.mp hmem with hh | hh
          · exact absurd hh.symm hne
          · exact hh
        have hinj' : ∀ m ∈ h.chain, m.bucket = root.bucket → m = root := by
          intro m hm hmb
          exact hinj m (by
            rw [show GNode.chain (GNode.child h e b pl)
                  = GNode.child h e b pl :: h.chain from rfl]
            exact List.mem_cons_of_mem _ hm) hmb
        rw [show relative_reach p root (GNode.child h e b pl)
              = if root.bucket = (GNode.child h e b pl).bucket then some 1
                else (relative_reach p root h).bind
                  (fun r => (reachAt p h e).map (fun q => r * q)) from rfl]
        rw [show pathReachProduct p root (GNode.child h e b pl)
              = if GNode.child h e b pl = root then some 1
                else (pathReachProduct p root h).bind
                  (fun r => (reachAt p h e).map (fun q => r * q)) from rfl]
        rw [if_neg hb, if_neg hne, ih hmem' hinj']

/-- C6 witness: a two-node chain — chance root, one child — with distinct
buckets. -/
theorem c6_relative_reach_witness :
    (GNode.base 0 Player.chance
        ∈ (GNode.child (GNode.base 0 Player.chance) 3 1 (Player.choice 0)).chain
      ∧ ∀ m ∈ (GNode.child (GNode.base 0 Player.chance) 3 1 (Player.choice 0)).chain,
          m.bucket = (GNode.base 0 Player.chance).bucket → m = GNode.base 0 Player.chance)
    ∧ relative_reach Profile.empty (GNode.base 0 Player.chance)
        (GNode.child (GNode.base 0 Player.chance) 3 1 (Player.choice 0))
      = pathReachProduct Profile.empty (GNode.base 0 Player.chance)
        (GNode.child (GNode.base 0 Player.chance) 3 1 (Player.choice 0)) :=
  ⟨⟨by decide, by decide⟩,
    c6_relative_reach.2 Profile.empty (GNode.base 0 Player.chance)
      (GNode.child (GNode.base 0 Player.chance) 3 1 (Player.choice 0))
      (by decide) (by decide)⟩

/-! ## C3: nearest-centroid selection -/

/-- The `min_by` fold keeps the first strictly-minimal element: the result is
the accumulator or a strict improvement from the list, it is minimal, and on
ties the element with the smaller (strictly increasing) first component
wins. -/
theorem minFold_spec :
    ∀ (xs : List (ℕ × ℚ)) (a r : ℕ × ℚ),
      xs.foldl (fun acc y => if y.2 < acc.2 then y else acc) a = r →
      List.Pairwise (fun u v : ℕ × ℚ => u.1 < v.1) (a :: xs) →
      (r = a ∨ (r ∈ xs ∧ r.2 < a.2))
      ∧ (∀ y ∈ a :: xs, r.2 ≤ y.2 ∧ (y.2 = r.2 → r.1 ≤ y.1)) := by
  intro xs
  induction xs with
  | nil =>
    intro a r hr _
    replace hr : a = r := hr
    subst hr
    refine ⟨Or.inl rfl, ?_⟩
    intro y hy
    rcases List.mem_cons.mp hy with hh | hh
    · subst hh
      exact ⟨le_refl _, fun _ => le_refl _⟩
    · simp at hh
  | cons y0 rest ih =>
    intro a r hr hpw
    have hpw' : List.Pairwise (fun u v : ℕ × ℚ => u.1 < v.1) (y0 :: rest) :=
      (List.pairwise_cons.mp hpw).2
    have hay0 : a.1 < y0.1 := (List.pairwise_cons.mp hpw).1 y0 (List.mem_cons_self _ _)
    have harest : ∀ y ∈ rest, a.1 < y.1 := by
      intro y hy
      exact (List.pairwise_cons.mp hpw).1 y (List.mem_cons_of_mem _ hy)
    replace hr : rest.foldl (fun acc y => if y.2 < acc.2 then y else acc)
        (if y0.2 < a.2 then y0 else a) = r := hr
    by_cases hcmp : y0.2 < a.2
    · rw [if_pos hcmp] at hr
      have hpw0 : List.Pairwise (fun u v : ℕ × ℚ => u.1 < v.1) (y0 :: rest) := hpw'
      obtain ⟨hc1, hc2⟩ := ih y0 r hr hpw0
      constructor
      · rcases hc1 with hh | ⟨hm, hlt⟩
        · exact Or.inr ⟨by rw [hh]; exact List.mem_cons_self _ _, by rw [hh]; exact hcmp⟩
        · exact Or.inr ⟨List.mem_cons_of_mem _ hm, lt_trans hlt hcmp⟩
      · intro y hy
        rcases List.mem_cons.mp hy with hh | hh
        · subst hh
          have hr2 : r.2 ≤ y0.2 := (hc2 y0 (List.mem_cons_self _ _)).1
          refine ⟨le_trans hr2 (le_of_lt hcmp), ?_⟩
          intro heq
          exact absurd (lt_of_le_of_lt (heq ▸ hr2) hcmp) (lt_irrefl _)
        · exact hc2 y hh
    · rw [if_neg hcmp] at hr
      have hpw0 : List.Pairwise (fun u v : ℕ × ℚ => u.1 < v.1) (a :: rest) := by
        rw [List.pairwise_cons]
        exact ⟨harest, (List.pairwise_cons.mp hpw').2⟩
      obtain ⟨hc1, hc2⟩ := ih a r hr hpw0
      constructor
      · rcases hc1 with hh | ⟨hm, hlt⟩
        · exact Or.inl hh
        · exact Or.inr ⟨List.mem_cons_of_mem _ hm, hlt⟩
      · intro y hy
        rcases List.mem_cons.mp hy with hh | hh
        · rw [hh]
          exact hc2 a (List.mem_cons_self _ _)
        · rcases List.mem_cons.mp hh with hh2 | hh2
          · rw [hh2]
            have hay : a.2 ≤ y0.2 := le_of_not_lt hcmp
            have hra : r.2 ≤ a.2 := (hc2 a (List.mem_cons_self _ _)).1
            refine ⟨le_trans hra hay, ?_⟩
            intro heq
            have h2 : a.2 ≤ r.2 := heq ▸ hay
            have hae : a.2 = r.2 := le_antisymm h2 hra
            rcases hc1 with hh3 | ⟨_, hlt⟩
            · rw [hh3]
              exact le_of_lt hay0
            · exact absurd (hae ▸ hlt) (lt_irrefl _)
          · exact hc2 y (List.mem_cons_of_mem _ hh2)

theorem enumFrom_mem (d : Hist) :
    ∀ (l : List Hist) (n : ℕ) (y : ℕ × Hist), y ∈ List.enumFrom n l →
      n ≤ y.1 ∧ y.1 - n < l.length ∧ l.getD (y.1 - n) d = y.2 := by
  intro l
  induction l with
  | nil => intro n y hy; simp [List.enumFrom] at hy
  | cons x xs ih =>
    intro n y hy
    rcases List.mem_cons.mp hy with hh | hh
    · subst hh
      refine ⟨le_refl _, by simp, by simp⟩
    · obtain ⟨h1, h2, h3⟩ := ih (n + 1) y hh
      refine ⟨le_trans (Nat.le_succ n) h1, ?_, ?_⟩
      · have : y.1 - n = (y.1 - (n + 1)) + 1 := by omega
        rw [this]
        simpa using h2
      · have : y.1 - n = (y.1 - (n + 1)) + 1 := by omega
        rw [this]
        simpa using h3

theorem enumFrom_mem_of_lt (d : Hist) :
    ∀ (l : List Hist) (n j : ℕ), j < l.length →
      (n + j, l.getD j d) ∈ List.enumFrom n l := by
  intro l
  induction l with
  | nil => intro n j hj; simp at hj
  | cons x xs ih =>
    intro n j hj
    cases j with
    | zero => simp [List.enumFrom]
    | succ j =>
      rw [show n + (j + 1) = (n + 1) + j by omega,
        show (x :: xs).getD (j + 1) d = xs.getD j d from rfl]
      exact List.mem_cons_of_mem _ (ih (n + 1) j (by simpa using hj))

theorem pairwise_fst_enumFrom :
    ∀ (l : List Hist) (n : ℕ),
      List.Pairwise (fun u v : ℕ × Hist => u.1 < v.1) (List.enumFrom n l) := by
  intro l
  induction l with
  | nil => intro n; simp [List.enumFrom]
  | cons x xs ih =>
    intro n
    rw [show List.enumFrom n (x :: xs) = (n, x) :: List.enumFrom (n + 1) xs from rfl,
      List.pairwise_cons]
    refine ⟨?_, ih (n + 1)⟩
    intro y hy
    have := (enumFrom_mem 0 xs (n + 1) y hy).1
    omega

/-- C3: `neighboring` returns an index/distance pair whose distance is the
EMD to that centroid, minimal over all centroids, and — among centroids
attaining the minimum — of lowest index. -/
theorem c3_neighboring (emd : Hist → Hist → ℚ) (kmeans : List Hist) (x : Hist)
    (hne : kmeans ≠ []) :
    ∃ k d, neighboring emd kmeans x = some (k, d)
      ∧ k < kmeans.length
      ∧ d = emd x (kmeans.getD k 0)
      ∧ (∀ j, j < kmeans.length → d ≤ emd x (kmeans.getD j 0))
      ∧ (∀ j, j < kmeans.length → emd x (kmeans.getD j 0) = d → k ≤ j) := by
  cases hk : kmeans with
  | nil => exact absurd hk hne
  | cons h0 tl =>
    subst hk
    set f : ℕ × Hist → ℕ × ℚ := fun pr => (pr.1, emd x pr.2) with hf
    have hlist : (List.enum (h0 :: tl)).map f
        = (0, emd x h0) :: (List.enumFrom 1 tl).map f := rfl
    set a : ℕ × ℚ := (0, emd x h0) with ha
    set xs : List (ℕ × ℚ) := (List.enumFrom 1 tl).map f with hxs
    set r : ℕ × ℚ := xs.foldl (fun acc y => if y.2 < acc.2 then y else acc) a with hrdef
    have hnb : neighboring emd (h0 :: tl) x = some r := by
      rw [neighboring, minByFirst.eq_def]
      rw [show (List.enum (h0 :: tl)).map (fun pr => (pr.1, emd x pr.2)) = a :: xs from hlist]
    have hpw : List.Pairwise (fun u v : ℕ × ℚ => u.1 < v.1) (a :: xs) := by
      rw [show a :: xs = (List.enum (h0 :: tl)).map f from hlist.symm]
      apply List.Pairwise.map
      · intro u v huv
        exact huv
      · exact pairwise_fst_enumFrom (h0 :: tl) 0
    obtain ⟨hc1, hc2⟩ := minFold_spec xs a r rfl hpw
    have hrmem : r ∈ a :: xs := by
      rcases hc1 with hh | ⟨hm, _⟩
      · rw [hh]; exact List.mem_cons_self _ _
      · exact List.mem_cons_of_mem _ hm
    have hrenum : r ∈ (List.enum (h0 :: tl)).map f := by
      rw [hlist]; exact hrmem
    obtain ⟨pr, hpr, hprf⟩ := List.mem_map.mp hrenum
    obtain ⟨_, hprlt, hprval⟩ := enumFrom_mem 0 (h0 :: tl) 0 pr hpr
    have hidx : ∀ j, j < (h0 :: tl).length →
        (j, emd x ((h0 :: tl).getD j 0)) ∈ a :: xs := by
      intro j hj
      rw [show a :: xs = (List.enum (h0 :: tl)).map f from hlist.symm]
      refine List.mem_map.mpr ⟨(j, (h0 :: tl).getD j 0), ?_, rfl⟩
      have h2 := enumFrom_mem_of_lt 0 (h0 :: tl) 0 j hj
      rw [Nat.zero_add] at h2
      exact h2
    refine ⟨r.1, r.2, by rw [hnb], ?_, ?_, ?_, ?_⟩
    · rw [← hprf]
      simpa using hprlt
    · rw [← hprf]
      simp only [hf]
      rw [← hprval]
      simp
    · intro j hj
      exact (hc2 _ (hidx j hj)).1
    · intro j hj heq
      exact (hc2 _ (hidx j hj)).2 heq

/-- C3 witness: two centroids at equal EMD from the point — the tie breaks
to index 0. -/
theorem c3_neighboring_witness :
    (([5, 3] : List Hist) ≠ [])
    ∧ ∃ k d, neighboring (fun a b => |(a : ℚ) - (b : ℚ)|) [5, 3] 4 = some (k, d)
      ∧ k < ([5, 3] : List Hist).length
      ∧ d = (fun a b => |(a : ℚ) - (b : ℚ)|) 4 (([5, 3] : List Hist).getD k 0)
      ∧ (∀ j, j < ([5, 3] : List Hist).length →
          d ≤ (fun a b => |(a : ℚ) - (b : ℚ)|) 4 (([5, 3] : List Hist).getD j 0))
      ∧ (∀ j, j < ([5, 3] : List Hist).length →
          (fun a b => |(a : ℚ) - (b : ℚ)|) 4 (([5, 3] : List Hist).getD j 0) = d → k ≤ j) :=
  ⟨by decide, c3_neighboring (fun a b => |(a : ℚ) - (b : ℚ)|) [5, 3] 4 (by decide)⟩

/-! ## C4: k-means++ initialization and its RNG -/

theorem initLoop_extends (points : List Hist) (emd : Hist → Hist → ℚ) (draws : ℕ → ℚ) :
    ∀ (fuel : ℕ) (hists : List Hist) (pots : List ℚ) (t : ℕ) (l : List Hist),
      initLoop points emd draws fuel hists pots t = some l → ∃ s, l = hists ++ s := by
  intro fuel
  induction fuel with
  | zero =>
    intro hists pots t l h
    replace h : some hists = some l := h
    cases h
    exact ⟨[], (List.append_nil _).symm⟩
  | succ fuel ih =>
    intro hists pots t l h
    rw [initLoop] at h
    by_cases hv : validWeights pots
    · rw [if_pos hv] at h
      split at h
      · simp at h
      · rename_i x hget
        obtain ⟨s, hs⟩ := ih (hists ++ [x]) _ (t + 1) l h
        exact ⟨x :: s, by rw [hs, List.append_assoc]; rfl⟩
    · rw [if_neg hv] at h
      simp at h

theorem sum_replicate_one (n : ℕ) : (List.replicate n (1 : ℚ)).sum = (n : ℚ) := by
  induction n with
  | zero => simp
  | succ n ih => simp [List.replicate_succ, ih, add_comm]

theorem validWeights_replicate_one (n : ℕ) (h : 0 < n) :
    validWeights (List.replicate n (1 : ℚ)) = true := by
  unfold validWeights
  refine (Bool.and_eq_true _ _).mpr ⟨(Bool.and_eq_true _ _).mpr ⟨?_, ?_⟩, ?_⟩
  · cases n with
    | zero => omega
    | succ n => simp [List.replicate_succ]
  · rw [List.all_eq_true]
    intro w hw
    rw [List.eq_of_mem_replicate hw]
    norm_num
  · rw [sum_replicate_one]
    simpa using h

/-- C4 amended: the k-means++ initialization is **not** seeded from the
street — the source draws from `rand::thread_rng()`.  What does hold: the
chosen centroids are a deterministic function of the points, the metric and
the ambient RNG draw stream (two runs agree iff they consume equal draws),
and the first centroid is the `WeightedIndex` draw over the unit
potentials. -/
theorem c4_init_draw_determined :
    (∀ (k : ℕ) (points : List Hist) (emd : Hist → Hist → ℚ) (d1 d2 : ℕ → ℚ),
      (∀ t, d1 t = d2 t) → init k points emd d1 = init k points emd d2)
    ∧ (∀ (k : ℕ) (points : List Hist) (emd : Hist → Hist → ℚ) (draws : ℕ → ℚ) (x : Hist),
        points.get? (weightedChoice (List.replicate points.length 1)
          (draws 0 * (points.length : ℚ))) = some x →
        points ≠ [] →
        ∀ l, init (k + 1) points emd draws = some l → l.head? = some x) := by
  constructor
  · intro k points emd d1 d2 hd
    have : d1 = d2 := funext hd
    rw [this]
  · intro k points emd draws x hget hne l hl
    have hn : 0 < points.length := List.length_pos.mpr hne
    unfold init at hl
    rw [initLoop] at hl
    rw [if_pos (validWeights_replicate_one points.length hn)] at hl
    split at hl
    · simp at hl
    · rename_i x0 hget0
      rw [sum_replicate_one] at hget0
      have hx : x0 = x := Option.some.inj (hget0.symm.trans hget)
      subst hx
      obtain ⟨s, hs⟩ := initLoop_extends points emd draws k ([] ++ [x0]) _ 1 l hl
      rw [hs]
      rfl

/-- C4 counterexample: the same street, points and metric, but two different
ambient draw streams (as `thread_rng` produces across executions) select
different first centroids, so the claimed execution-to-execution determinism
is false. -/
theorem c4_init_counterexample :
    init 1 [0, 1] (fun _ _ => 0) (fun _ => 0) = some [0]
    ∧ init 1 [0, 1] (fun _ _ => 0) (fun _ => 3 / 4) = some [1]
    ∧ init 1 [0, 1] (fun _ _ => 0) (fun _ => 0)
        ≠ init 1 [0, 1] (fun _ _ => 0) (fun _ => 3 / 4) := by
  have h1 : init 1 [0, 1] (fun _ _ => 0) (fun _ => 0) = some [0] := by
    norm_num [init, initLoop, validWeights, weightedChoice, List.replicate]
  have h2 : init 1 [0, 1] (fun _ _ => 0) (fun _ => 3 / 4) = some [1] := by
    norm_num [init, initLoop, validWeights, weightedChoice, List.replicate]
  refine ⟨h1, h2, ?_⟩
  rw [h1, h2]
  simp

/-- C4 witness: the first-centroid characterization at a concrete draw. -/
theorem c4_init_draw_determined_witness :
    (([7, 8] : List Hist).get? (weightedChoice (List.replicate ([7, 8] : List Hist).length 1)
        ((fun _ : ℕ => (0 : ℚ)) 0 * (([7, 8] : List Hist).length : ℚ))) = some 7
      ∧ ([7, 8] : List Hist) ≠ [])
    ∧ ∀ l, init 1 [7, 8] (fun _ _ => 0) (fun _ => 0) = some l → l.head? = some 7 := by
  have hget : ([7, 8] : List Hist).get? (weightedChoice (List.replicate ([7, 8] : List Hist).length 1)
      ((fun _ : ℕ => (0 : ℚ)) 0 * (([7, 8] : List Hist).length : ℚ))) = some 7 := by
    norm_num [weightedChoice, List.replicate]
  exact ⟨⟨hget, by decide⟩,
    c4_init_draw_determined.2 0 [7, 8] (fun _ _ => 0) (fun _ => 0) 7 hget (by decide)⟩

/-! ## C8: PGCOPY loading under corruption -/

theorem readExact_of_lt : ∀ (n : ℕ) (l : Bytes), l.length < n → readExact n l = none := by
  intro n
  induction n with
  | zero => intro l h; omega
  | succ n ih =>
    intro l h
    cases l with
    | nil => rfl
    | cons b bs =>
      have : bs.length < n := by simpa using h
      simp [readExact, ih bs this]

theorem readExact_some_ge (n : ℕ) (l : Bytes) (pr : Bytes × Bytes)
    (h : readExact n l = some pr) : n ≤ l.length := by
  by_contra hc
  rw [readExact_of_lt n l (by omega)] at h
  simp at h

theorem readExact_some_len :
    ∀ (n : ℕ) (l : Bytes) (pr : Bytes × Bytes),
      readExact n l = some pr → pr.2.length = l.length - n := by
  intro n
  induction n with
  | zero =>
    intro l pr h
    replace h : some (([] : Bytes), l) = some pr := h
    cases h
    simp
  | succ n ih =>
    intro l pr h
    cases l with
    | nil => simp [readExact] at h
    | cons b bs =>
      simp only [readExact] at h
      cases hr : readExact n bs with
      | none => rw [hr] at h; simp at h
      | some pr0 =>
        rw [hr] at h
        replace h : some (b :: pr0.1, pr0.2) = some pr := h
        cases h
        have := ih bs pr0 hr
        simp [this]

/-- C8 amended: `Metric::load` never validates the 19-byte header — any two
artifacts differing only there load identically; a corrupted field count
makes the loop stop and silently return the rows read so far; a fatal error
occurs only when a row with field count 2 is truncated mid-fields (fewer
than the 20 framed bytes remaining). -/
theorem c8_load_corruption :
    (∀ (h1 h2 t : Bytes), h1.length = 19 → h2.length = 19 →
      loadMetric (h1 ++ t) = loadMetric (h2 ++ t))
    ∧ (∀ (fuel : ℕ) (b0 b1 : ℕ) (t : Bytes) (acc : List (ℤ × ℕ)),
        be16 b0 b1 ≠ 2 → loadAux (fuel + 1) (b0 :: b1 :: t) acc = .ok acc)
    ∧ (∀ (fuel : ℕ) (b0 b1 : ℕ) (t : Bytes) (acc : List (ℤ × ℕ)),
        be16 b0 b1 = 2 → t.length < 20 →
        loadAux (fuel + 1) (b0 :: b1 :: t) acc = .error ()) := by
  refine ⟨?_, ?_, ?_⟩
  · intro h1 h2 t hl1 hl2
    unfold loadMetric
    rw [show (h1 ++ t).drop 19 = t by rw [← hl1]; exact List.drop_left h1 t]
    rw [show (h2 ++ t).drop 19 = t by rw [← hl2]; exact List.drop_left h2 t]
    rw [List.length_append, List.length_append, hl1, hl2]
  · intro fuel b0 b1 t acc h
    rw [loadAux]
    rw [if_neg h]
  · intro fuel b0 b1 t acc h hlen
    rw [loadAux]
    rw [if_pos h]
    split
    · rfl
    next buf4 bs2 h4 =>
      split
      · rfl
      next buf8 bs3 h8 =>
        split
        · rfl
        next buf4b bs4 h4b =>
          split
          · rfl
          next buf4c bs5 h4c =>
            exfalso
            have e4 := readExact_some_len 4 t _ h4
            have e8 := readExact_some_len 8 bs2 _ h8
            have e4b := readExact_some_len 4 bs3 _ h4b
            have g8 := readExact_some_ge 8 bs2 _ h8
            have g4c := readExact_some_ge 4 bs4 _ h4c
            simp only at e4 e8 e4b
            omega

/-- C8 counterexample: flipping the first header byte (or the row field
count) of a well-formed artifact does not make `load` fail — the header
corruption is invisible and the field-count corruption silently yields a
truncated (here empty) map, refuting the fatal-error claim. -/
theorem c8_load_counterexample :
    loadMetric c8good = Except.ok [(7, beNat [1, 2, 3, 4])]
    ∧ loadMetric c8bad = Except.ok [(7, beNat [1, 2, 3, 4])]
    ∧ loadMetric c8badCount = Except.ok [] := by
  refine ⟨rfl, rfl, rfl⟩

/-- C8 witness: the header-indifference part applied to two concrete
artifacts that differ in all 19 header bytes. -/
theorem c8_load_corruption_witness :
    ((List.replicate 19 (0 : ℕ)).length = 19 ∧ (List.replicate 19 (255 : ℕ)).length = 19)
    ∧ loadMetric (List.replicate 19 (0 : ℕ) ++ [255, 255])
        = loadMetric (List.replicate 19 (255 : ℕ) ++ [255, 255]) :=
  ⟨⟨by decide, by decide⟩,
    c8_load_corruption.1 (List.replicate 19 0) (List.replicate 19 255) [255, 255]
      (by decide) (by decide)⟩

end Robopoker
